import Mathlib

/-!
Verification of the markup-log reconciliation logic of the Slicer
annotation workflow scripts (`auto_script.py`, mac variant).

Strings are modelled as `List Char`; Python string operations
(`str.replace`, `str.split`, `str.strip`, `int(...)`, `str(...)`)
are given faithful executable counterparts.
-/

abbrev Str := List Char

/-- Python `str.strip()` whitespace characters (ASCII subset used by the logs). -/
def isSpaceCh (c : Char) : Bool :=
  c = ' ' || c = '\t' || c = '\n' || c = '\r' || c = Char.ofNat 11 || c = Char.ofNat 12

/-- Python `str.strip()`: drop whitespace from both ends. -/
def pyStrip (s : Str) : Str :=
  ((s.dropWhile isSpaceCh).reverse.dropWhile isSpaceCh).reverse

/-- Python `str.split(sep)` for a single-character separator (no maxsplit). -/
def pySplitChar (c : Char) : Str → List Str
  | [] => [[]]
  | x :: xs =>
    if x = c then [] :: pySplitChar c xs
    else
      match pySplitChar c xs with
      | [] => [[x]]
      | g :: gs => (x :: g) :: gs

/-- Python `sep.join(parts)` for a single-character separator. -/
def joinWith (c : Char) : List Str → Str
  | [] => []
  | [x] => x
  | x :: y :: xs => x ++ c :: joinWith c (y :: xs)

/-- Split off everything before / after the first occurrence of `c`. -/
def splitFirst (c : Char) : Str → Option (Str × Str)
  | [] => none
  | x :: xs =>
    if x = c then some ([], xs)
    else (splitFirst c xs).map (fun p => (x :: p.1, p.2))

/-- Python `str.split(sep, maxsplit)` for a single-character separator. -/
def splitN (c : Char) : Nat → Str → List Str
  | 0, s => [s]
  | n + 1, s =>
    match splitFirst c s with
    | none => [s]
    | some (a, b) => a :: splitN c n b

/-- Python `str.replace(old, new)` for a single-character pattern. -/
def replaceChar (p : Char) (r : Str) : Str → Str
  | [] => []
  | c :: rest => (if c = p then r else [c]) ++ replaceChar p r rest

/-- Python `str.replace(old, new)` for a three-character pattern
(left-to-right, non-overlapping, replacement not rescanned). -/
def replace3 (p₁ p₂ p₃ : Char) (r : Str) : Str → Str
  | [] => []
  | [c] => [c]
  | [c, d] => [c, d]
  | c :: d :: e :: rest =>
    if c = p₁ ∧ d = p₂ ∧ e = p₃ then r ++ replace3 p₁ p₂ p₃ r rest
    else c :: replace3 p₁ p₂ p₃ r (d :: e :: rest)

/-- Python `str.replace(".json", "")`. -/
def removeJson : Str → Str
  | [] => []
  | [c] => [c]
  | [c, d] => [c, d]
  | [c, d, e] => [c, d, e]
  | [c, d, e, f] => [c, d, e, f]
  | c :: d :: e :: f :: g :: rest =>
    if c = '.' ∧ d = 'j' ∧ e = 's' ∧ f = 'o' ∧ g = 'n' then removeJson rest
    else c :: removeJson (d :: e :: f :: g :: rest)

/-- Decimal digits of a natural number (fuel-based so that it evaluates). -/
def natDigsAux : Nat → Nat → Str
  | 0, _ => []
  | fuel + 1, n =>
    if n < 10 then [Char.ofNat (48 + n)]
    else natDigsAux fuel (n / 10) ++ [Char.ofNat (48 + n % 10)]

/-- Python `str(n)` for a natural number. -/
def natToDigits (n : Nat) : Str := natDigsAux (n + 1) n

/-- Numeric value of a list of decimal digit characters. -/
def digitsVal (l : Str) : Nat := l.foldl (fun a c => 10 * a + (c.toNat - 48)) 0

/-- Python `int(s)`: optional surrounding whitespace, optional sign,
then a nonempty run of decimal digits; `none` models `ValueError`. -/
def pyIntParse (s : Str) : Option Int :=
  match pyStrip s with
  | '+' :: ds => if ds ≠ [] ∧ ds.all Char.isDigit then some (digitsVal ds : Int) else none
  | '-' :: ds => if ds ≠ [] ∧ ds.all Char.isDigit then some (-(digitsVal ds : Int)) else none
  | ds => if ds ≠ [] ∧ ds.all Char.isDigit then some (digitsVal ds : Int) else none

/-- `int(fname.replace(".json", "").split("_")[-1])` from the exit handler. -/
def parseTrailing (fname : Str) : Option Int :=
  pyIntParse ((pySplitChar '_' (removeJson fname)).getLastD [])

/-- The replacement table of `encode_filename`, in Python dict order
(the duplicate `'"'` key keeps its first position and last value `_E_`). -/
def encodePairs : List (Char × Str) :=
  [('/', ['_', 'S', '_']),
   ('\\', ['_', 'B', '_']),
   (':', ['_', 'C', '_']),
   ('*', ['_', 'A', '_']),
   ('?', ['_', 'Q', '_']),
   ('"', ['_', 'E', '_']),
   ('<', ['_', 'L', '_']),
   ('>', ['_', 'G', '_']),
   ('|', ['_', 'P', '_']),
   (Char.ofNat 0, ['_', 'N', '_']),
   (' ', ['_', 'U', '_']),
   (',', ['_', 'Z', '_'])]

/-- `encode_filename`: sequential `str.replace` over the table. -/
def encode_filename (name : Str) : Str :=
  encodePairs.foldl (fun acc p => replaceChar p.1 p.2 acc) name

/-- The replacement table of `decode_filename`, in Python dict order. -/
def decodePairs : List ((Char × Char × Char) × Char) :=
  [(('_', 'S', '_'), '/'),
   (('_', 'B', '_'), '\\'),
   (('_', 'C', '_'), ':'),
   (('_', 'A', '_'), '*'),
   (('_', 'Q', '_'), '?'),
   (('_', 'W', '_'), '"'),
   (('_', 'L', '_'), '<'),
   (('_', 'G', '_'), '>'),
   (('_', 'P', '_'), '|'),
   (('_', 'N', '_'), Char.ofNat 0),
   (('_', 'U', '_'), ' '),
   (('_', 'Z', '_'), ','),
   (('_', 'E', '_'), '"')]

/-- `decode_filename`: sequential `str.replace` over the table. -/
def decode_filename (s : Str) : Str :=
  decodePairs.foldl (fun acc p => replace3 p.1.1 p.1.2.1 p.1.2.2 [p.2] acc) s

/-- The filesystem-special characters that `encode_filename` eliminates. -/
def specialChars : List Char :=
  ['/', '\\', ':', '*', '?', '"', '<', '>', '|', Char.ofNat 0, ' ', ',']

/-- Per-character form of `encode_filename`. -/
def encodeChar (c : Char) : Str :=
  if c = '/' then ['_', 'S', '_']
  else if c = '\\' then ['_', 'B', '_']
  else if c = ':' then ['_', 'C', '_']
  else if c = '*' then ['_', 'A', '_']
  else if c = '?' then ['_', 'Q', '_']
  else if c = '"' then ['_', 'E', '_']
  else if c = '<' then ['_', 'L', '_']
  else if c = '>' then ['_', 'G', '_']
  else if c = '|' then ['_', 'P', '_']
  else if c = Char.ofNat 0 then ['_', 'N', '_']
  else if c = ' ' then ['_', 'U', '_']
  else if c = ',' then ['_', 'Z', '_']
  else [c]

/-! ## Markup log data model (`markup_log.csv` and the in-memory dict) -/

/-- One value of the `markup_log` dict: `created_at`, `content`, `deleted_at`. -/
structure Entry where
  created_at : Str
  content : Str
  deleted_at : Str
deriving DecidableEq

/-- The `markup_log` dict, as an insertion-ordered association list. -/
abbrev MarkupLog := List (Str × Entry)

/-- Keys of the log, in insertion order. -/
def logKeys (m : MarkupLog) : List Str := m.map Prod.fst

/-- First-match lookup (dict access). -/
def lookupLog (k : Str) : MarkupLog → Option Entry
  | [] => none
  | (k', e) :: rest => if k' = k then some e else lookupLog k rest

/-- Python dict assignment `m[k] = e`: update in place if present, else append. -/
def upsertLog (k : Str) (e : Entry) (m : MarkupLog) : MarkupLog :=
  if k ∈ logKeys m then m.map (fun p => if p.1 = k then (k, e) else p)
  else m ++ [(k, e)]

/-- Header line of `markup_log.csv`. -/
def headerLine : Str :=
  ['f','i','l','e','n','a','m','e',',','c','r','e','a','t','e','d','_','a','t',
   ',','c','o','n','t','e','n','t',',','d','e','l','e','t','e','d','_','a','t']

/-- Exit-time loader: `for line in log.readlines()[1:]: parts = line.strip().split(",", 3);
if len(parts) >= 4: markup_log[parts[0]] = {...}`.  A file is a list of lines
(without their trailing newline). -/
def loadLog (lines : List Str) : MarkupLog :=
  (lines.drop 1).foldl
    (fun m line =>
      let parts := splitN ',' 3 (pyStrip line)
      if parts.length ≥ 4 then
        upsertLog (parts.getD 0 []) ⟨parts.getD 1 [], parts.getD 2 [], parts.getD 3 []⟩ m
      else m)
    []

/-- Exit-time writer: header line, then
`f"{fname},{data['created_at']},\"{data['content']}\",{data['deleted_at']}\n"` per entry. -/
def writeLog (m : MarkupLog) : List Str :=
  headerLine ::
    m.map (fun p =>
      p.1 ++ ',' :: p.2.created_at ++ ',' :: '"' :: p.2.content ++ '"' :: ',' :: p.2.deleted_at)

/-! ## The exit handler's reconciliation loop -/

/-- A markup node in the scene at exit: its name, whether
`slicer.util.saveNode` (and the follow-up read) succeeds, and the JSON text
read back from the saved file. -/
structure Node where
  name : Str
  saveOk : Bool
  content : Str
deriving DecidableEq

/-- `json.dumps(json.load(f)).replace("\n", "").replace(",", ";")`. -/
def sanitizeContent (s : Str) : Str :=
  replaceChar ',' [';'] (replaceChar '\n' [] s)

/-- `".json"` as a character list. -/
def jsonSuffix : Str := ['.', 'j', 's', 'o', 'n']

/-- State threaded through the exit handler:
`max_number`, `markup_log`, `current_filenames`, the files present in the
source folder, and (for bookkeeping) the freshly generated filenames in order. -/
structure ExitState where
  maxn : Int
  log : MarkupLog
  current : List Str
  files : List Str
  assigned : List Str
deriving DecidableEq

/-- `max_number` computed from the loaded log keys: the largest successfully
parsed trailing number, starting from 0. -/
def initMax (keys : List Str) : Int :=
  keys.foldl
    (fun mx k =>
      match parseTrailing k with
      | some v => if v > mx then v else mx
      | none => mx)
    0

/-- Initial exit state from the loaded log and the files on disk. -/
def initState (log0 : MarkupLog) (fs0 : List Str) : ExitState :=
  ⟨initMax (logKeys log0), log0, [], fs0, []⟩

/-- The body of `for markupNode in final_markup_nodes: ...`. -/
def processNode (now : Str) (st : ExitState) (nd : Node) : ExitState :=
  let e := encode_filename nd.name
  let matched := (e ++ jsonSuffix) ∈ logKeys st.log
  let maxn' := if matched then st.maxn else st.maxn + 1
  let safe :=
    if matched then e ++ jsonSuffix
    else e ++ '_' :: natToDigits (st.maxn + 1).toNat ++ jsonSuffix
  let st' : ExitState :=
    { st with
      maxn := maxn'
      current := st.current ++ [safe]
      assigned := if matched then st.assigned else st.assigned ++ [safe] }
  if nd.saveOk then
    let c := sanitizeContent nd.content
    { st' with
      files := if safe ∈ st'.files then st'.files else st'.files ++ [safe]
      log :=
        if safe ∈ logKeys st'.log then
          st'.log.map (fun p =>
            if p.1 = safe then (p.1, { p.2 with content := c, deleted_at := [] }) else p)
        else st'.log ++ [(safe, ⟨now, c, []⟩)] }
  else st'

/-- The whole save loop. -/
def saveLoop (now : Str) (nodes : List Node) (st : ExitState) : ExitState :=
  nodes.foldl (processNode now) st

/-- `deleted_files = set(markup_log.keys()) - current_filenames`. -/
def deletedFiles (st : ExitState) : List Str :=
  (logKeys st.log).filter (fun k => ¬ k ∈ st.current)

/-- The deletion loop: remove each deleted file from disk and stamp
`deleted_at` when it was previously empty. -/
def processDeletions (now : Str) (st : ExitState) : ExitState :=
  let del := deletedFiles st
  { st with
    files := st.files.filter (fun f => ¬ f ∈ del)
    log := st.log.map (fun p =>
      if p.1 ∈ del ∧ p.2.deleted_at = [] then (p.1, { p.2 with deleted_at := now }) else p) }

/-- The full exit reconciliation (save loop then deletion pass). -/
def runExit (now : Str) (nodes : List Node) (log0 : MarkupLog) (fs0 : List Str) : ExitState :=
  processDeletions now (saveLoop now nodes (initState log0 fs0))

/-! ## The master status log (`--log_csv`) update -/

/-- `done_status = "True" if len(final_markup_nodes) > 0 else ""`. -/
def doneStatus (nodes : List Node) : Str :=
  if nodes.length > 0 then ['T', 'r', 'u', 'e'] else []

/-- `while len(parts) < 3: parts.append("")`. -/
def padTo3 (l : List Str) : List Str := l ++ List.replicate (3 - l.length) []

/-- Rewriting of the matching row:
`parts = line.strip().split(','); pad; parts[2] = done; ",".flatten(parts) + "\n"`. -/
def rewriteLine (done line : Str) : Str :=
  joinWith ',' ((padTo3 (pySplitChar ',' (pyStrip line))).set 2 done) ++ ['\n']

/-- Per-line behaviour of the update loop (lines keep their trailing newline). -/
def lineUpdate (report done line : Str) : Str :=
  if (report ++ [',']).isPrefixOf line then rewriteLine done line else line

/-- The whole `--log_csv` rewrite. -/
def updateReportLog (report done : Str) (lines : List Str) : List Str :=
  lines.map (lineUpdate report done)

/-- The columns of a row, as the code itself extracts them. -/
def rowFields (line : Str) : List Str := pySplitChar ',' (pyStrip line)

/-! ## Failure model for the status-log update (claim C5) -/

/-- File operations performed inside the `try` block. -/
inductive FOp where
  | writeTemp (l : Str)
  | replaceTemp
deriving DecidableEq

/-- Contents of `log_csv` (target) and `log_csv + ".tmp"` (temp). -/
structure RFiles where
  target : List Str
  temp : List Str
deriving DecidableEq

def runOp (s : RFiles) : FOp → RFiles
  | .writeTemp l => { s with temp := s.temp ++ [l] }
  | .replaceTemp => { target := s.temp, temp := [] }

def runOps (s : RFiles) (ops : List FOp) : RFiles := ops.foldl runOp s

/-- The operation sequence of the update: write every output line to the
temp file, then atomically rename it over the target. -/
def updateOps (report done : Str) (lines : List Str) : List FOp :=
  (updateReportLog report done lines).map FOp.writeTemp ++ [FOp.replaceTemp]

/-! ## Characterization of `encode_filename` -/

theorem replaceChar_append (p : Char) (r : Str) (a b : Str) :
    replaceChar p r (a ++ b) = replaceChar p r a ++ replaceChar p r b := by
  induction a with
  | nil => rfl
  | cons c a ih => simp [replaceChar, ih]

theorem replaceChar_join (p : Char) (r : Str) (L : List Str) :
    replaceChar p r L.flatten = (L.map (replaceChar p r)).flatten := by
  induction L with
  | nil => rfl
  | cons l L ih => simp [List.flatten, replaceChar_append, ih]

theorem fold_replaceChar_join (ps : List (Char × Str)) :
    ∀ (g : Char → Str) (s : Str),
      ps.foldl (fun acc p => replaceChar p.1 p.2 acc) ((s.map g).flatten)
        = (s.map (fun c => ps.foldl (fun l p => replaceChar p.1 p.2 l) (g c))).flatten := by
  induction ps with
  | nil => intro g s; rfl
  | cons p ps ih =>
    intro g s
    simp only [List.foldl]
    rw [replaceChar_join, List.map_map]
    exact ih (fun c => replaceChar p.1 p.2 (g c)) s

theorem flatten_map_singleton (s : Str) : (s.map (fun c => [c])).flatten = s := by
  induction s with
  | nil => rfl
  | cons c s ih => simp [ih]

theorem replaceChar_single_ne (p : Char) (r : Str) (c : Char) (h : c ≠ p) :
    replaceChar p r [c] = [c] := by
  simp [replaceChar, h]

theorem encodeChar_fold (c : Char) :
    encodePairs.foldl (fun l p => replaceChar p.1 p.2 l) [c] = encodeChar c := by
  by_cases h1 : c = '/'
  · subst h1; decide
  by_cases h2 : c = '\\'
  · subst h2; decide
  by_cases h3 : c = ':'
  · subst h3; decide
  by_cases h4 : c = '*'
  · subst h4; decide
  by_cases h5 : c = '?'
  · subst h5; decide
  by_cases h6 : c = '"'
  · subst h6; decide
  by_cases h7 : c = '<'
  · subst h7; decide
  by_cases h8 : c = '>'
  · subst h8; decide
  by_cases h9 : c = '|'
  · subst h9; decide
  by_cases h10 : c = Char.ofNat 0
  · subst h10; decide
  by_cases h11 : c = ' '
  · subst h11; decide
  by_cases h12 : c = ','
  · subst h12; decide
  · simp only [encodePairs, List.foldl,
      replaceChar_single_ne _ _ _ h1, replaceChar_single_ne _ _ _ h2,
      replaceChar_single_ne _ _ _ h3, replaceChar_single_ne _ _ _ h4,
      replaceChar_single_ne _ _ _ h5, replaceChar_single_ne _ _ _ h6,
      replaceChar_single_ne _ _ _ h7, replaceChar_single_ne _ _ _ h8,
      replaceChar_single_ne _ _ _ h9, replaceChar_single_ne _ _ _ h10,
      replaceChar_single_ne _ _ _ h11, replaceChar_single_ne _ _ _ h12]
    simp [encodeChar, h1, h2, h3, h4, h5, h6, h7, h8, h9, h10, h11, h12]

theorem encode_eq_join_map (s : Str) :
    encode_filename s = (s.map encodeChar).flatten := by
  have h0 : encode_filename s
      = encodePairs.foldl (fun acc p => replaceChar p.1 p.2 acc) ((s.map (fun c => [c])).flatten) := by
    rw [flatten_map_singleton]; rfl
  rw [h0, fold_replaceChar_join encodePairs (fun c => [c]) s]
  congr 1
  exact List.map_congr_left (fun c _ => encodeChar_fold c)

theorem encodeChar_no_special (d c : Char) (h : c ∈ encodeChar d) : ¬ c ∈ specialChars := by
  by_cases h1 : d = '/'
  · subst h1; simp [encodeChar] at h; rcases h with rfl | rfl | rfl <;> decide
  by_cases h2 : d = '\\'
  · subst h2; simp [encodeChar] at h; rcases h with rfl | rfl | rfl <;> decide
  by_cases h3 : d = ':'
  · subst h3; simp [encodeChar] at h; rcases h with rfl | rfl | rfl <;> decide
  by_cases h4 : d = '*'
  · subst h4; simp [encodeChar] at h; rcases h with rfl | rfl | rfl <;> decide
  by_cases h5 : d = '?'
  · subst h5; simp [encodeChar] at h; rcases h with rfl | rfl | rfl <;> decide
  by_cases h6 : d = '"'
  · subst h6; simp [encodeChar] at h; rcases h with rfl | rfl | rfl <;> decide
  by_cases h7 : d = '<'
  · subst h7; simp [encodeChar] at h; rcases h with rfl | rfl | rfl <;> decide
  by_cases h8 : d = '>'
  · subst h8; simp [encodeChar] at h; rcases h with rfl | rfl | rfl <;> decide
  by_cases h9 : d = '|'
  · subst h9; simp [encodeChar] at h; rcases h with rfl | rfl | rfl <;> decide
  by_cases h10 : d = Char.ofNat 0
  · subst h10; simp [encodeChar] at h; rcases h with rfl | rfl | rfl <;> decide
  by_cases h11 : d = ' '
  · subst h11; simp [encodeChar] at h; rcases h with rfl | rfl | rfl <;> decide
  by_cases h12 : d = ','
  · subst h12; simp [encodeChar] at h; rcases h with rfl | rfl | rfl <;> decide
  · simp [encodeChar, h1, h2, h3, h4, h5, h6, h7, h8, h9, h10, h11, h12] at h
    subst h
    simp [specialChars]
    exact ⟨h1, h2, h3, h4, h5, h6, h7, h8, h9, h10, h11, h12⟩

/-- C7: `encode_filename` replaces every occurrence of each filesystem-special
character (slash, backslash, colon, asterisk, question mark, double quote,
less-than, greater-than, pipe, NUL, space, comma) by its multi-letter escape
code — it acts per character via `encodeChar` — and therefore its output
contains none of those special characters. -/
theorem c7_encode_filename_no_specials (s : Str) :
    encode_filename s = (s.map encodeChar).flatten ∧
      ∀ c, c ∈ encode_filename s → ¬ c ∈ specialChars := by
  refine ⟨encode_eq_join_map s, ?_⟩
  intro c hc
  rw [encode_eq_join_map] at hc
  rcases List.mem_flatten.mp hc with ⟨l, hl, hcl⟩
  rcases List.mem_map.mp hl with ⟨d, _, rfl⟩
  exact encodeChar_no_special d c hcl

theorem c7_encode_filename_no_specials_witness :
    ('_' ∈ encode_filename ['a', '/', 'b']) ∧ ¬ '_' ∈ specialChars :=
  ⟨by decide, (c7_encode_filename_no_specials ['a', '/', 'b']).2 '_' (by decide)⟩

/-! ## `decode_filename` on encoded strings (claim C9) -/

/-- The uppercase letters used inside the escape codes. -/
def codeLetters : List Char :=
  ['S', 'B', 'C', 'A', 'Q', 'W', 'L', 'G', 'P', 'N', 'U', 'Z', 'E']

/-- A per-character map producing either a harmless single character or a
whole escape-code block. -/
def BlockFun (g : Char → Str) : Prop :=
  ∀ c, ¬ c ∈ codeLetters →
    (∃ d, g c = [d] ∧ ¬ d ∈ codeLetters) ∨ (∃ Y, Y ∈ codeLetters ∧ g c = ['_', Y, '_'])

/-- One decoding pass applied per character. -/
def stepFun (X r' : Char) (g : Char → Str) : Char → Str :=
  fun c => if g c = ['_', X, '_'] then [r'] else g c

theorem replace3_cons_ne (p₁ p₂ p₃ : Char) (r : Str) (x : Char) (t : Str) (h : x ≠ p₁) :
    replace3 p₁ p₂ p₃ r (x :: t) = x :: replace3 p₁ p₂ p₃ r t := by
  match t with
  | [] => rfl
  | [y] => rfl
  | y :: z :: t' => simp [replace3, h]

theorem replace3_underscore_cons (X : Char) (r t : Str)
    (h : ∀ y t', t = y :: t' → y ≠ X) :
    replace3 '_' X '_' r ('_' :: t) = '_' :: replace3 '_' X '_' r t := by
  match t with
  | [] => rfl
  | [y] => rfl
  | y :: z :: t' =>
    have hy : y ≠ X := h y (z :: t') rfl
    simp [replace3, hy]

theorem replace3_head_match (X : Char) (r t : Str) :
    replace3 '_' X '_' r ('_' :: X :: '_' :: t) = r ++ replace3 '_' X '_' r t := by
  simp [replace3]

theorem blocks_head_not_letter (g : Char → Str) (hg : BlockFun g) (s : Str)
    (hs : ∀ c ∈ s, ¬ c ∈ codeLetters) (X : Char) (hX : X ∈ codeLetters) :
    ∀ y t', (s.map g).flatten = y :: t' → y ≠ X := by
  intro y t' hflat
  match s with
  | [] => simp at hflat
  | c :: s' =>
    have hgood : ¬ c ∈ codeLetters := hs c (List.mem_cons_self c s')
    rcases hg c hgood with ⟨d, hgc, hd⟩ | ⟨Y, hY, hgc⟩
    · simp [hgc] at hflat
      intro hyx
      exact hd (hflat.1 ▸ hyx ▸ hX)
    · simp [hgc] at hflat
      intro hyx
      have : ('_' : Char) = X := hflat.1 ▸ hyx
      rw [← this] at hX
      exact absurd hX (by decide)

theorem decode_step (g : Char → Str) (X r' : Char)
    (hg : BlockFun g) (hX : X ∈ codeLetters) :
    ∀ s : Str, (∀ c ∈ s, ¬ c ∈ codeLetters) →
      replace3 '_' X '_' [r'] ((s.map g).flatten)
        = (s.map (stepFun X r' g)).flatten := by
  intro s
  induction s with
  | nil => intro _; rfl
  | cons c s' ih =>
    intro hs
    have hgood : ¬ c ∈ codeLetters := hs c (List.mem_cons_self c s')
    have hs' : ∀ d ∈ s', ¬ d ∈ codeLetters := fun d hd => hs d (List.mem_cons_of_mem _ hd)
    have hrest := ih hs'
    have hhead := blocks_head_not_letter g hg s' hs' X hX
    simp only [List.map_cons, List.flatten_cons]
    rcases hg c hgood with ⟨d, hgc, hd⟩ | ⟨Y, hY, hgc⟩
    · have hne : g c ≠ ['_', X, '_'] := by
        rw [hgc]; intro hh; simp at hh
      rw [hgc, List.singleton_append, stepFun, if_neg hne, hgc, List.singleton_append]
      by_cases hdu : d = '_'
      · subst hdu
        rw [replace3_underscore_cons X [r'] _ hhead, hrest]
      · rw [replace3_cons_ne _ _ _ _ _ _ hdu, hrest]
    · have hYu : Y ≠ '_' := by
        intro hh; rw [hh] at hY; exact absurd hY (by decide)
      by_cases hYX : Y = X
      · subst hYX
        have heq : g c = ['_', Y, '_'] := hgc
        rw [hgc, List.cons_append, List.cons_append, List.cons_append, List.nil_append,
          replace3_head_match, stepFun, if_pos heq, hrest]
      · have hne : g c ≠ ['_', X, '_'] := by
          rw [hgc]; intro hh; simp at hh; exact hYX hh
        rw [hgc, stepFun, if_neg hne, hgc]
        simp only [List.cons_append, List.nil_append]
        rw [replace3_underscore_cons X [r'] _ (by intro y t' hh; cases hh; exact hYX),
          replace3_cons_ne _ _ _ _ _ _ hYu,
          replace3_underscore_cons X [r'] _ hhead, hrest]

/-- Shape of the decode table: every pattern is `'_' X '_'` with `X` an
escape-code letter, and every replacement is not an escape-code letter. -/
def GoodPairs (ps : List ((Char × Char × Char) × Char)) : Prop :=
  ∀ p ∈ ps, p.1.1 = '_' ∧ p.1.2.2 = '_' ∧ p.1.2.1 ∈ codeLetters ∧ ¬ p.2 ∈ codeLetters

instance : DecidablePred GoodPairs := fun ps => by
  unfold GoodPairs; infer_instance

theorem stepFun_block (X r' : Char) (g : Char → Str) (hg : BlockFun g)
    (hr : ¬ r' ∈ codeLetters) : BlockFun (stepFun X r' g) := by
  intro c hc
  by_cases hgc : g c = ['_', X, '_']
  · exact Or.inl ⟨r', by simp [stepFun, hgc], hr⟩
  · rcases hg c hc with ⟨d, h, hd⟩ | ⟨Y, hY, h⟩
    · exact Or.inl ⟨d, by simp [stepFun, hgc, h], hd⟩
    · have hYX : ¬ Y = X := by
        intro hh; rw [h, hh] at hgc; exact hgc rfl
      exact Or.inr ⟨Y, hY, by simp [stepFun, hgc, h, hYX]⟩

theorem decode_fold_blocks (ps : List ((Char × Char × Char) × Char)) (hps : GoodPairs ps) :
    ∀ g : Char → Str, BlockFun g → ∀ s : Str, (∀ c ∈ s, ¬ c ∈ codeLetters) →
      ps.foldl (fun acc p => replace3 p.1.1 p.1.2.1 p.1.2.2 [p.2] acc) ((s.map g).flatten)
        = (s.map (ps.foldl (fun g p => stepFun p.1.2.1 p.2 g) g)).flatten := by
  induction ps with
  | nil => intro g _ s _; rfl
  | cons p ps ih =>
    intro g hg s hs
    obtain ⟨h1, h2, hX, hr⟩ := hps p (List.mem_cons_self p ps)
    have hps' : GoodPairs ps := fun q hq => hps q (List.mem_cons_of_mem _ hq)
    simp only [List.foldl]
    rw [h1, h2, decode_step g p.1.2.1 p.2 hg hX s hs]
    exact ih hps' (stepFun p.1.2.1 p.2 g) (stepFun_block _ _ _ hg hr) s hs

theorem singleton_fold (ps : List ((Char × Char × Char) × Char)) :
    ∀ (g : Char → Str) (c : Char), g c = [c] →
      (ps.foldl (fun g p => stepFun p.1.2.1 p.2 g) g) c = [c] := by
  induction ps with
  | nil => intro g c h; exact h
  | cons p ps ih =>
    intro g c h
    simp only [List.foldl]
    refine ih (stepFun p.1.2.1 p.2 g) c ?_
    have hne : g c ≠ ['_', p.1.2.1, '_'] := by rw [h]; intro hh; simp at hh
    simp [stepFun, hne, h]

theorem encodeChar_block : BlockFun encodeChar := by
  intro c hc
  by_cases h1 : c = '/'
  · subst h1; exact Or.inr ⟨'S', by decide, by decide⟩
  by_cases h2 : c = '\\'
  · subst h2; exact Or.inr ⟨'B', by decide, by decide⟩
  by_cases h3 : c = ':'
  · subst h3; exact Or.inr ⟨'C', by decide, by decide⟩
  by_cases h4 : c = '*'
  · subst h4; exact Or.inr ⟨'A', by decide, by decide⟩
  by_cases h5 : c = '?'
  · subst h5; exact Or.inr ⟨'Q', by decide, by decide⟩
  by_cases h6 : c = '"'
  · subst h6; exact Or.inr ⟨'E', by decide, by decide⟩
  by_cases h7 : c = '<'
  · subst h7; exact Or.inr ⟨'L', by decide, by decide⟩
  by_cases h8 : c = '>'
  · subst h8; exact Or.inr ⟨'G', by decide, by decide⟩
  by_cases h9 : c = '|'
  · subst h9; exact Or.inr ⟨'P', by decide, by decide⟩
  by_cases h10 : c = Char.ofNat 0
  · subst h10; exact Or.inr ⟨'N', by decide, by decide⟩
  by_cases h11 : c = ' '
  · subst h11; exact Or.inr ⟨'U', by decide, by decide⟩
  by_cases h12 : c = ','
  · subst h12; exact Or.inr ⟨'Z', by decide, by decide⟩
  · exact Or.inl ⟨c, by simp [encodeChar, h1, h2, h3, h4, h5, h6, h7, h8, h9, h10, h11, h12], hc⟩

theorem decodeChar_of_special (c : Char) (hc : ¬ c ∈ codeLetters) :
    (decodePairs.foldl (fun g p => stepFun p.1.2.1 p.2 g) encodeChar) c = [c] := by
  by_cases h1 : c = '/'
  · subst h1; decide
  by_cases h2 : c = '\\'
  · subst h2; decide
  by_cases h3 : c = ':'
  · subst h3; decide
  by_cases h4 : c = '*'
  · subst h4; decide
  by_cases h5 : c = '?'
  · subst h5; decide
  by_cases h6 : c = '"'
  · subst h6; decide
  by_cases h7 : c = '<'
  · subst h7; decide
  by_cases h8 : c = '>'
  · subst h8; decide
  by_cases h9 : c = '|'
  · subst h9; decide
  by_cases h10 : c = Char.ofNat 0
  · subst h10; decide
  by_cases h11 : c = ' '
  · subst h11; decide
  by_cases h12 : c = ','
  · subst h12; decide
  · exact singleton_fold decodePairs encodeChar c
      (by simp [encodeChar, h1, h2, h3, h4, h5, h6, h7, h8, h9, h10, h11, h12])

/-- C9 counterexample: `decode_filename` is not a left inverse of
`encode_filename` on all inputs — the name `"?S?"` encodes to `"_Q_S_Q_"`,
whose decoding (the `_S_` pass runs first) is `"_Q/Q_"`. -/
theorem c9_counterexample :
    decode_filename (encode_filename ['?', 'S', '?']) ≠ ['?', 'S', '?'] := by decide

/-- C9 (amended): `decode_filename` is a left inverse of `encode_filename`
on every name that contains none of the escape-code letters
`S B C A Q W L G P N U Z E`. -/
theorem c9_decode_encode_left_inverse (name : Str)
    (h : ∀ c ∈ name, ¬ c ∈ codeLetters) :
    decode_filename (encode_filename name) = name := by
  rw [encode_eq_join_map]
  show decodePairs.foldl (fun acc p => replace3 p.1.1 p.1.2.1 p.1.2.2 [p.2] acc)
      ((name.map encodeChar).flatten) = name
  rw [decode_fold_blocks decodePairs (by decide) encodeChar encodeChar_block name h]
  have : name.map (decodePairs.foldl (fun g p => stepFun p.1.2.1 p.2 g) encodeChar)
      = name.map (fun c => [c]) :=
    List.map_congr_left (fun c hc => decodeChar_of_special c (h c hc))
  rw [this, flatten_map_singleton]

theorem c9_decode_encode_left_inverse_witness :
    (∀ c ∈ (['a', '/', 'b', '?', '.', 'j'] : Str), ¬ c ∈ codeLetters) ∧
      decode_filename (encode_filename ['a', '/', 'b', '?', '.', 'j'])
        = ['a', '/', 'b', '?', '.', 'j'] :=
  ⟨by decide, c9_decode_encode_left_inverse ['a', '/', 'b', '?', '.', 'j'] (by decide)⟩

/-! ## Trailing-number parsing of generated filenames (claim C6) -/

def digitChars : List Char := ['0', '1', '2', '3', '4', '5', '6', '7', '8', '9']

@[simp] theorem removeJson_nil : removeJson [] = [] := rfl

theorem removeJson_cons5 (t : Str) :
    removeJson ('.' :: 'j' :: 's' :: 'o' :: 'n' :: t) = removeJson t := by
  simp [removeJson]

theorem removeJson_cons (c : Char) (t : Str)
    (h : ¬ (c = '.' ∧ t.take 4 = ['j', 's', 'o', 'n'])) :
    removeJson (c :: t) = c :: removeJson t := by
  match t with
  | [] => rfl
  | [d] => rfl
  | [d, e] => rfl
  | [d, e, f] => rfl
  | d :: e :: f :: g :: t' =>
    have h' : ¬ (c = '.' ∧ d = 'j' ∧ e = 's' ∧ f = 'o' ∧ g = 'n') := by
      rintro ⟨hc, hd, he, hf, hg⟩
      exact h ⟨hc, by simp [hd, he, hf, hg]⟩
    simp [removeJson, h']

theorem removeJson_append :
    ∀ (N : Nat) (e x : Str), e.length ≤ N →
      (∀ c, x.head? = some c → ¬ c ∈ ['.', 'j', 's', 'o', 'n']) →
      removeJson (e ++ x) = removeJson e ++ removeJson x := by
  intro N
  induction N with
  | zero =>
    intro e x he _
    have : e = [] := List.length_eq_zero.mp (Nat.le_zero.mp he)
    subst this; simp
  | succ N ih =>
    intro e x he hx
    match e with
    | [] => simp
    | c :: e' =>
      by_cases hjson : c = '.' ∧ e'.take 4 = ['j', 's', 'o', 'n']
      · obtain ⟨hc, htake⟩ := hjson
        subst hc
        have hlen : 4 ≤ e'.length := by
          by_contra hlt
          push_neg at hlt
          have := congrArg List.length htake
          simp [List.length_take] at this
          omega
        obtain ⟨d1, e2, rfl⟩ : ∃ d1 e2, e' = d1 :: e2 := by
          cases e' with
          | nil => simp at hlen
          | cons d1 e2 => exact ⟨d1, e2, rfl⟩
        obtain ⟨d2, e3, rfl⟩ : ∃ d2 e3, e2 = d2 :: e3 := by
          cases e3 : e2 with
          | nil => subst e3; simp at hlen
          | cons d2 e3' => exact ⟨d2, e3', rfl⟩
        obtain ⟨d3, e4, rfl⟩ : ∃ d3 e4, e3 = d3 :: e4 := by
          cases e4 : e3 with
          | nil => subst e4; simp at hlen
          | cons d3 e4' => exact ⟨d3, e4', rfl⟩
        obtain ⟨d4, e5, rfl⟩ : ∃ d4 e5, e4 = d4 :: e5 := by
          cases e5 : e4 with
          | nil => subst e5; simp at hlen
          | cons d4 e5' => exact ⟨d4, e5', rfl⟩
        have hds : d1 = 'j' ∧ d2 = 's' ∧ d3 = 'o' ∧ d4 = 'n' := by
          simpa using htake
        obtain ⟨rfl, rfl, rfl, rfl⟩ := hds
        have he5 : e5.length ≤ N := by simp at he; omega
        calc removeJson (('.' :: 'j' :: 's' :: 'o' :: 'n' :: e5) ++ x)
            = removeJson (e5 ++ x) := by
              simp only [List.cons_append]; exact removeJson_cons5 (e5 ++ x)
          _ = removeJson e5 ++ removeJson x := ih e5 x he5 hx
          _ = removeJson ('.' :: 'j' :: 's' :: 'o' :: 'n' :: e5) ++ removeJson x := by
              rw [removeJson_cons5]
      · have hcond : ¬ (c = '.' ∧ (e' ++ x).take 4 = ['j', 's', 'o', 'n']) := by
          rintro ⟨hc, htake⟩
          subst hc
          by_cases hlen : 4 ≤ e'.length
          · exact hjson ⟨rfl, by rwa [List.take_append_of_le_length hlen] at htake⟩
          · push_neg at hlen
            match e', hlen with
            | [], _ =>
              match x, htake with
              | ch :: x', htake =>
                simp at htake
                exact hx ch rfl (by simp [htake.1])
            | [a], _ =>
              match x, htake with
              | ch :: x', htake =>
                simp at htake
                exact hx ch rfl (by simp [htake.2.1])
            | [a, b], _ =>
              match x, htake with
              | ch :: x', htake =>
                simp at htake
                exact hx ch rfl (by simp [htake.2.2.1])
            | [a, b, c'], _ =>
              match x, htake with
              | ch :: x', htake =>
                simp at htake
                exact hx ch rfl (by simp [htake.2.2.2])
        have he' : e'.length ≤ N := by simp at he; omega
        rw [List.cons_append, removeJson_cons c (e' ++ x) hcond,
          removeJson_cons c e' hjson, ih e' x he' hx, List.cons_append]

theorem natDigsAux_eq :
    ∀ f₁ f₂ n, n < f₁ → n < f₂ → natDigsAux f₁ n = natDigsAux f₂ n := by
  intro f₁
  induction f₁ with
  | zero => intro f₂ n h; omega
  | succ f ih =>
    intro f₂ n h1 h2
    match f₂ with
    | 0 => omega
    | f₂' + 1 =>
      simp only [natDigsAux]
      by_cases h10 : n < 10
      · simp [h10]
      · have hd : n / 10 < n := Nat.div_lt_self (by omega) (by omega)
        rw [if_neg h10, if_neg h10, ih f₂' (n / 10) (by omega) (by omega)]

theorem digitsVal_append_digit (l : Str) (c : Char) :
    digitsVal (l ++ [c]) = 10 * digitsVal l + (c.toNat - 48) := by
  simp [digitsVal, List.foldl_append]

theorem natToDigits_spec :
    ∀ n : Nat, natToDigits n ≠ [] ∧ (∀ c ∈ natToDigits n, c ∈ digitChars) ∧
      digitsVal (natToDigits n) = n := by
  intro n
  induction n using Nat.strong_induction_on with
  | _ n ih =>
    by_cases h10 : n < 10
    · unfold natToDigits natDigsAux
      rw [if_pos h10]
      refine ⟨by simp, ?_, ?_⟩
      · intro c hc
        simp at hc
        subst hc
        interval_cases n <;> decide
      · interval_cases n <;> decide
    · have hd : n / 10 < n := Nat.div_lt_self (by omega) (by omega)
      have hrw : natToDigits n = natToDigits (n / 10) ++ [Char.ofNat (48 + n % 10)] := by
        unfold natToDigits
        conv_lhs => rw [show n + 1 = (n) + 1 from rfl]
        simp only [natDigsAux]
        rw [if_neg h10, natDigsAux_eq n (n / 10 + 1) (n / 10) (by omega) (by omega)]
        simp only [natDigsAux]
      obtain ⟨hne, hdig, hval⟩ := ih (n / 10) hd
      have hm : n % 10 < 10 := Nat.mod_lt _ (by omega)
      have hcd : Char.ofNat (48 + n % 10) ∈ digitChars ∧ (Char.ofNat (48 + n % 10)).toNat = 48 + n % 10 := by
        interval_cases h : (n % 10) <;> simp_all <;> decide
      refine ⟨by simp [hrw], ?_, ?_⟩
      · intro c hc
        rw [hrw] at hc
        rcases List.mem_append.mp hc with h | h
        · exact hdig c h
        · simp at h; subst h; exact hcd.1
      · rw [hrw, digitsVal_append_digit, hval, hcd.2]
        omega

theorem digitChar_props (d : Char) (h : d ∈ digitChars) :
    d ≠ '+' ∧ d ≠ '-' ∧ isSpaceCh d = false ∧ d.isDigit = true ∧ d ≠ '_' ∧
      ¬ d ∈ ['.', 'j', 's', 'o', 'n'] := by
  fin_cases h <;> exact ⟨by decide, by decide, by decide, by decide, by decide, by decide⟩

theorem dropWhile_eq_self_of_head (p : Char → Bool) (s : Str)
    (h : ∀ c, s.head? = some c → p c = false) : s.dropWhile p = s := by
  cases s with
  | nil => rfl
  | cons c t => simp [List.dropWhile, h c rfl]

theorem pyStrip_eq_self (s : Str)
    (h1 : ∀ c, s.head? = some c → isSpaceCh c = false)
    (h2 : ∀ c, s.getLast? = some c → isSpaceCh c = false) : pyStrip s = s := by
  unfold pyStrip
  rw [dropWhile_eq_self_of_head _ s h1,
    dropWhile_eq_self_of_head _ s.reverse (by
      intro c hc
      exact h2 c (by rwa [List.head?_reverse] at hc)),
    List.reverse_reverse]

theorem pyIntParse_digits (ds : Str) (hne : ds ≠ []) (hd : ∀ c ∈ ds, c ∈ digitChars) :
    pyIntParse ds = some (digitsVal ds : Int) := by
  have hstrip : pyStrip ds = ds := by
    refine pyStrip_eq_self ds ?_ ?_
    · intro c hc
      exact (digitChar_props c (hd c (List.mem_of_mem_head? hc))).2.2.1
    · intro c hc
      exact (digitChar_props c (hd c (List.mem_of_mem_getLast? hc))).2.2.1
  match ds, hne with
  | d :: t, _ =>
    have hdp := digitChar_props d (hd d (List.mem_cons_self d t))
    have hall : (d :: t).all Char.isDigit = true := by
      rw [List.all_eq_true]
      intro c hc
      exact (digitChar_props c (hd c hc)).2.2.2.1
    unfold pyIntParse
    rw [hstrip]
    have hplus : d ≠ '+' := hdp.1
    have hminus : d ≠ '-' := hdp.2.1
    match d, hplus, hminus with
    | d, hplus, hminus =>
      split
      · rename_i heq
        rw [List.cons.injEq] at heq
        exact absurd heq.1 hplus
      · rename_i heq
        rw [List.cons.injEq] at heq
        exact absurd heq.1 hminus
      · simp [hall]

theorem pySplitChar_ne_nil (c : Char) (s : Str) : pySplitChar c s ≠ [] := by
  match s with
  | [] => simp [pySplitChar]
  | x :: xs =>
    by_cases h : x = c
    · simp [pySplitChar, h]
    · simp only [pySplitChar, if_neg h]
      match hrec : pySplitChar c xs with
      | [] => simp
      | g :: gs => simp

theorem pySplitChar_no_sep (c : Char) (s : Str) (h : ¬ c ∈ s) : pySplitChar c s = [s] := by
  induction s with
  | nil => rfl
  | cons x xs ih =>
    have hx : x ≠ c := by intro hh; exact h (hh ▸ List.mem_cons_self x xs)
    have hxs : ¬ c ∈ xs := fun hh => h (List.mem_cons_of_mem _ hh)
    simp only [pySplitChar, if_neg hx, ih hxs]

theorem pySplitChar_len2 (c : Char) (s : Str) (h : c ∈ s) :
    2 ≤ (pySplitChar c s).length := by
  induction s with
  | nil => simp at h
  | cons x xs ih =>
    by_cases hx : x = c
    · simp only [pySplitChar, if_pos hx, List.length_cons]
      have := pySplitChar_ne_nil c xs
      have : 1 ≤ (pySplitChar c xs).length := by
        cases hh : pySplitChar c xs with
        | nil => exact absurd hh this
        | cons g gs => simp
      omega
    · have hxs : c ∈ xs := by
        rcases List.mem_cons.mp h with h1 | h1
        · exact absurd h1.symm hx
        · exact h1
      have h2 := ih hxs
      simp only [pySplitChar, if_neg hx]
      match hrec : pySplitChar c xs with
      | [] => exact absurd hrec (pySplitChar_ne_nil c xs)
      | g :: gs => rw [hrec] at h2; simpa using h2

theorem pySplitChar_getLast_suffix (c : Char) :
    ∀ (a b : Str), ¬ c ∈ b → ((pySplitChar c (a ++ c :: b)).getLastD []) = b := by
  intro a
  induction a with
  | nil =>
    intro b hb
    simp only [List.nil_append, pySplitChar, if_pos rfl]
    rw [pySplitChar_no_sep c b hb]
    rfl
  | cons x a' ih =>
    intro b hb
    by_cases hx : x = c
    · simp only [List.cons_append, pySplitChar, if_pos hx]
      have := ih b hb
      cases hh : pySplitChar c (a' ++ c :: b) with
      | nil => exact absurd hh (pySplitChar_ne_nil _ _)
      | cons g gs =>
        rw [hh] at this
        simpa using this
    · simp only [List.cons_append, pySplitChar, if_neg hx]
      have hlen : 2 ≤ (pySplitChar c (a' ++ c :: b)).length :=
        pySplitChar_len2 c _ (by simp)
      have hval := ih b hb
      match hrec : pySplitChar c (a' ++ c :: b) with
      | [] => exact absurd hrec (pySplitChar_ne_nil _ _)
      | [g] => rw [hrec] at hlen; simp at hlen
      | g :: g2 :: gs =>
        rw [hrec] at hval
        simp only [List.getLastD_cons] at hval ⊢
        exact hval

theorem removeJson_digits_json (ds : Str) (hd : ∀ c ∈ ds, c ∈ digitChars) :
    removeJson (ds ++ jsonSuffix) = ds := by
  induction ds with
  | nil => decide
  | cons d t ih =>
    have hdp := digitChar_props d (hd d (List.mem_cons_self d t))
    have hne : ¬ (d = '.' ∧ (t ++ jsonSuffix).take 4 = ['j', 's', 'o', 'n']) := by
      rintro ⟨hc, _⟩
      exact hdp.2.2.2.2.2 (by simp [hc])
    rw [List.cons_append, removeJson_cons d _ hne,
      ih (fun c hc => hd c (List.mem_cons_of_mem _ hc))]

/-- The trailing-number parse of a generated filename
`e ++ "_" ++ str(n) ++ ".json"` is exactly `n`, whatever the base `e` is. -/
theorem parseTrailing_constructed (e : Str) (n : Nat) :
    parseTrailing (e ++ '_' :: natToDigits n ++ jsonSuffix) = some (n : Int) := by
  obtain ⟨hne, hdig, hval⟩ := natToDigits_spec n
  have h1 : removeJson (e ++ '_' :: (natToDigits n ++ jsonSuffix))
      = removeJson e ++ removeJson ('_' :: (natToDigits n ++ jsonSuffix)) :=
    removeJson_append e.length e _ (le_refl _)
      (by intro c hc; simp at hc; subst hc; decide)
  have h2 : removeJson ('_' :: (natToDigits n ++ jsonSuffix))
      = '_' :: (natToDigits n) := by
    rw [removeJson_cons '_' _ (by rintro ⟨hc, _⟩; exact absurd hc (by decide)),
      removeJson_digits_json (natToDigits n) hdig]
  have hnosep : ¬ '_' ∈ natToDigits n := by
    intro hh
    exact (digitChar_props '_' (hdig '_' hh)).2.2.2.2.1 rfl
  unfold parseTrailing
  rw [show e ++ '_' :: natToDigits n ++ jsonSuffix = e ++ '_' :: (natToDigits n ++ jsonSuffix) by simp,
    h1, h2]
  rw [show removeJson e ++ '_' :: natToDigits n = removeJson e ++ '_' :: natToDigits n from rfl,
    pySplitChar_getLast_suffix '_' (removeJson e) (natToDigits n) hnosep,
    pyIntParse_digits (natToDigits n) hne hdig, hval]

/-! ## Atomicity of the status-log rewrite (claim C5) -/

theorem runOps_writes_only_temp :
    ∀ (ws : List Str) (s : RFiles),
      (runOps s (ws.map FOp.writeTemp)).target = s.target ∧
      (runOps s (ws.map FOp.writeTemp)).temp = s.temp ++ ws := by
  intro ws
  induction ws with
  | nil => intro s; exact ⟨rfl, by simp [runOps]⟩
  | cons w ws ih =>
    intro s
    have h := ih { s with temp := s.temp ++ [w] }
    simp only [List.map_cons, runOps, List.foldl] at h ⊢
    have hop : runOp s (FOp.writeTemp w) = { s with temp := s.temp ++ [w] } := rfl
    rw [hop]
    exact ⟨h.1, by rw [h.2]; simp⟩

/-- C5: the status-log update writes all output lines to the temporary file
and renames it over `log_csv` only as the final operation; executing any
strict prefix of the operation sequence (a failure before completion, whose
exception the handler catches) leaves the target file unchanged, and the
complete sequence replaces the target with the rewritten log. -/
theorem c5_update_atomic (report done : Str) (lines : List Str) (s : RFiles) (k : Nat)
    (hk : k < (updateOps report done lines).length) :
    (runOps s ((updateOps report done lines).take k)).target = s.target ∧
    (runOps ⟨lines, []⟩ (updateOps report done lines)).target
      = updateReportLog report done lines := by
  constructor
  · have hk' : k ≤ (updateReportLog report done lines).length := by
      have hlen : (updateOps report done lines).length
          = (updateReportLog report done lines).length + 1 := by
        simp [updateOps]
      omega
    have htake : (updateOps report done lines).take k
        = ((updateReportLog report done lines).take k).map FOp.writeTemp := by
      unfold updateOps
      rw [List.take_append_of_le_length (by simpa using hk'), ← List.map_take]
    rw [htake]
    exact (runOps_writes_only_temp _ s).1
  · unfold updateOps runOps
    rw [List.foldl_append]
    have h1 := runOps_writes_only_temp (updateReportLog report done lines) ⟨lines, []⟩
    unfold runOps at h1
    simp [List.foldl, runOp, h1.2]

theorem c5_update_atomic_witness :
    (0 < (updateOps ['5'] ['T'] [['5', ',', 'a', '\n']]).length) ∧
      ((runOps ⟨[['x']], []⟩ ((updateOps ['5'] ['T'] [['5', ',', 'a', '\n']]).take 0)).target
          = [['x']] ∧
        (runOps ⟨[['5', ',', 'a', '\n']], []⟩
            (updateOps ['5'] ['T'] [['5', ',', 'a', '\n']])).target
          = updateReportLog ['5'] ['T'] [['5', ',', 'a', '\n']]) :=
  ⟨by decide, c5_update_atomic ['5'] ['T'] [['5', ',', 'a', '\n']] ⟨[['x']], []⟩ 0 (by decide)⟩

/-! ## Row-field analysis of the status-log rewrite (claims C4 and C8) -/

theorem dropWhile_head_not (p : Char → Bool) (s : Str) (ch : Char)
    (h : (s.dropWhile p).head? = some ch) : p ch = false := by
  induction s with
  | nil => simp [List.dropWhile] at h
  | cons c t ih =>
    rw [List.dropWhile_cons] at h
    by_cases hc : p c
    · rw [if_pos hc] at h; exact ih h
    · rw [if_neg hc] at h
      simp at h
      subst h
      simpa using hc

theorem dropWhile_isSuffix (p : Char → Bool) (s : Str) : s.dropWhile p <:+ s := by
  induction s with
  | nil => simp
  | cons c t ih =>
    rw [List.dropWhile_cons]
    by_cases hc : p c
    · rw [if_pos hc]
      exact ih.trans (List.suffix_cons c t)
    · rw [if_neg hc]

theorem pyStrip_head_not_space (s : Str) (ch : Char)
    (h : (pyStrip s).head? = some ch) : isSpaceCh ch = false := by
  unfold pyStrip at h
  obtain ⟨u, hu⟩ := dropWhile_isSuffix isSpaceCh (s.dropWhile isSpaceCh).reverse
  have ht2 : ((s.dropWhile isSpaceCh).reverse.dropWhile isSpaceCh).reverse ++ u.reverse
      = s.dropWhile isSpaceCh := by
    have hrev := congrArg List.reverse hu
    simpa using hrev
  have hch : (s.dropWhile isSpaceCh).head? = some ch := by
    rw [← ht2]
    cases hcase : ((s.dropWhile isSpaceCh).reverse.dropWhile isSpaceCh).reverse with
    | nil => rw [hcase] at h; simp at h
    | cons a l =>
      rw [hcase] at h
      simp at h
      simp [h]
  exact dropWhile_head_not isSpaceCh s ch hch

theorem pyStrip_getLast_not_space (s : Str) (ch : Char)
    (h : (pyStrip s).getLast? = some ch) : isSpaceCh ch = false := by
  unfold pyStrip at h
  rw [List.getLast?_reverse] at h
  exact dropWhile_head_not _ _ _ h

theorem mem_pyStrip (s : Str) (c : Char) (hc : isSpaceCh c = false) (h : c ∈ s) :
    c ∈ pyStrip s := by
  have key : ∀ (t : Str), c ∈ t → c ∈ t.dropWhile isSpaceCh := by
    intro t ht
    induction t with
    | nil => simp at ht
    | cons x xs ih =>
      rw [List.dropWhile_cons]
      by_cases hx : isSpaceCh x
      · rw [if_pos hx]
        rcases List.mem_cons.mp ht with h1 | h1
        · rw [h1] at hc; rw [hc] at hx; simp at hx
        · exact ih h1
      · rw [if_neg hx]; exact ht
  unfold pyStrip
  rw [List.mem_reverse]
  exact key _ (by rw [List.mem_reverse]; exact key _ h)

theorem pySplitChar_eq_single_nil (sep : Char) (t : Str)
    (h : pySplitChar sep t = [[]]) : t = [] := by
  match t with
  | [] => rfl
  | x :: xs =>
    by_cases hx : x = sep
    · simp only [pySplitChar, if_pos hx] at h
      have := pySplitChar_ne_nil sep xs
      simp at h
      exact absurd h this
    · simp only [pySplitChar, if_neg hx] at h
      cases hrec : pySplitChar sep xs with
      | nil => exact absurd hrec (pySplitChar_ne_nil _ _)
      | cons g gs => rw [hrec] at h; simp at h

theorem pySplitChar_first_head (sep : Char) (t : Str) (p0 : Str) (rest : List Str)
    (hsp : pySplitChar sep t = p0 :: rest) (hne : p0 ≠ []) : p0.head? = t.head? := by
  match t with
  | [] =>
    simp [pySplitChar] at hsp
    exact absurd hsp.1 hne
  | x :: xs =>
    by_cases hx : x = sep
    · simp only [pySplitChar, if_pos hx] at hsp
      rw [List.cons.injEq] at hsp
      exact absurd hsp.1.symm hne
    · simp only [pySplitChar, if_neg hx] at hsp
      cases hrec : pySplitChar sep xs with
      | nil => exact absurd hrec (pySplitChar_ne_nil _ _)
      | cons g gs =>
        rw [hrec, List.cons.injEq] at hsp
        rw [← hsp.1]
        simp

theorem pieces_no_sep (sep : Char) : ∀ (t : Str) (q : Str), q ∈ pySplitChar sep t → ¬ sep ∈ q := by
  intro t
  induction t with
  | nil =>
    intro q hq
    simp [pySplitChar] at hq
    simp [hq]
  | cons x xs ih =>
    intro q hq
    by_cases hx : x = sep
    · simp only [pySplitChar, if_pos hx] at hq
      rcases List.mem_cons.mp hq with h1 | h1
      · simp [h1]
      · exact ih q h1
    · simp only [pySplitChar, if_neg hx] at hq
      cases hrec : pySplitChar sep xs with
      | nil => exact absurd hrec (pySplitChar_ne_nil _ _)
      | cons g gs =>
        rw [hrec] at hq
        rcases List.mem_cons.mp hq with h1 | h1
        · subst h1
          intro hmem
          rcases List.mem_cons.mp hmem with h2 | h2
          · exact hx h2.symm
          · exact ih g (hrec ▸ List.mem_cons_self g gs) h2
        · exact ih q (hrec ▸ List.mem_cons_of_mem g h1)

theorem split_sep_append (sep : Char) :
    ∀ (p u : Str), ¬ sep ∈ p → pySplitChar sep (p ++ sep :: u) = p :: pySplitChar sep u := by
  intro p
  induction p with
  | nil => intro u _; simp [pySplitChar]
  | cons x p' ih =>
    intro u hp
    have hx : x ≠ sep := fun hh => hp (hh ▸ List.mem_cons_self x p')
    have hp' : ¬ sep ∈ p' := fun hh => hp (List.mem_cons_of_mem _ hh)
    rw [List.cons_append]
    simp only [pySplitChar, if_neg hx]
    rw [ih u hp']

theorem split_join_roundtrip (sep : Char) :
    ∀ (parts : List Str), parts ≠ [] → (∀ q ∈ parts, ¬ sep ∈ q) →
      pySplitChar sep (joinWith sep parts) = parts := by
  intro parts
  induction parts with
  | nil => intro h; exact absurd rfl h
  | cons p rest ih =>
    intro _ hq
    cases rest with
    | nil =>
      show pySplitChar sep p = [p]
      exact pySplitChar_no_sep sep p (hq p (List.mem_cons_self p []))
    | cons q t =>
      show pySplitChar sep (p ++ sep :: joinWith sep (q :: t)) = p :: q :: t
      rw [split_sep_append sep p _ (hq p (List.mem_cons_self p _)),
        ih (by simp) (fun r hr => hq r (List.mem_cons_of_mem _ hr))]

theorem pySplitChar_last_getLast (sep : Char) :
    ∀ (t : Str) (ch : Char),
      ((pySplitChar sep t).getLastD []).getLast? = some ch → t.getLast? = some ch := by
  intro t
  induction t with
  | nil => intro ch h; simp [pySplitChar] at h
  | cons x xs ih =>
    intro ch h
    by_cases hx : x = sep
    · simp only [pySplitChar, if_pos hx, List.getLastD_cons] at h
      have hxs := ih ch h
      have hxs_ne : xs ≠ [] := by
        intro hh; rw [hh] at hxs; simp at hxs
      match xs, hxs_ne with
      | y :: ys, _ => rw [List.getLast?_cons_cons]; exact hxs
    · simp only [pySplitChar, if_neg hx] at h
      cases hrec : pySplitChar sep xs with
      | nil => exact absurd hrec (pySplitChar_ne_nil _ _)
      | cons g gs =>
        rw [hrec] at h
        cases gs with
        | nil =>
          simp only [List.getLastD_cons, List.getLastD_nil] at h
          cases hg : g with
          | nil =>
            rw [hg] at h
            simp at h
            have hxs_nil : xs = [] :=
              pySplitChar_eq_single_nil sep xs (by rw [hrec, hg])
            subst hxs_nil
            simpa using h
          | cons d g' =>
            rw [hg] at h
            rw [List.getLast?_cons_cons] at h
            have hih := ih ch (by rw [hrec, hg]; simpa using h)
            have hxs_ne : xs ≠ [] := by
              intro hh
              rw [hh] at hrec
              simp [pySplitChar] at hrec
              rw [hrec] at hg
              simp at hg
            match xs, hxs_ne with
            | y :: ys, _ => rw [List.getLast?_cons_cons]; exact hih
        | cons g2 gs' =>
          simp only [List.getLastD_cons] at h
          have hih := ih ch (by rw [hrec]; simp only [List.getLastD_cons]; exact h)
          have hxs_ne : xs ≠ [] := by
            intro hh
            rw [hh] at hrec
            simp [pySplitChar] at hrec
          match xs, hxs_ne with
          | y :: ys, _ => rw [List.getLast?_cons_cons]; exact hih

theorem pyStrip_append_newline (A : Str)
    (h1 : ∀ ch, A.head? = some ch → isSpaceCh ch = false)
    (h2 : ∀ ch, A.getLast? = some ch → isSpaceCh ch = false) :
    pyStrip (A ++ ['\n']) = A := by
  match A with
  | [] => decide
  | a :: A' =>
    have ha : isSpaceCh a = false := h1 a rfl
    unfold pyStrip
    rw [List.cons_append, List.dropWhile_cons, if_neg (by rw [ha]; simp)]
    rw [show a :: (A' ++ ['\n']) = (a :: A') ++ ['\n'] from rfl]
    rw [List.reverse_append]
    simp only [List.reverse_cons, List.reverse_nil, List.nil_append, List.singleton_append]
    rw [List.dropWhile_cons, if_pos (by decide)]
    have hself : List.dropWhile isSpaceCh (A'.reverse ++ [a]) = A'.reverse ++ [a] := by
      apply dropWhile_eq_self_of_head
      intro ch hch
      have hch' : ((a :: A').reverse).head? = some ch := by
        simpa [List.reverse_cons] using hch
      rw [List.head?_reverse] at hch'
      exact h2 ch hch'
    rw [hself]
    simp

theorem joinWith_head (c : Char) (p0 : Str) (rest : List Str) :
    (joinWith c (p0 :: rest)).head?
      = if p0 = [] then (if rest = [] then none else some c) else p0.head? := by
  cases rest with
  | nil => cases p0 <;> simp [joinWith]
  | cons q t => cases p0 <;> simp [joinWith]

theorem joinWith_getLast (c : Char) :
    ∀ (parts : List Str) (ch : Char), (joinWith c parts).getLast? = some ch →
      ch = c ∨ (parts.getLastD []).getLast? = some ch := by
  intro parts
  induction parts with
  | nil => intro ch h; simp [joinWith] at h
  | cons p rest ih =>
    intro ch h
    cases rest with
    | nil => right; simpa [joinWith] using h
    | cons q t =>
      rw [show joinWith c (p :: q :: t) = p ++ c :: joinWith c (q :: t) from rfl,
        List.getLast?_append_of_ne_nil _ (by simp)] at h
      cases hJ : joinWith c (q :: t) with
      | nil =>
        rw [hJ] at h
        simp at h
        left; exact h.symm
      | cons j js =>
        rw [hJ, List.getLast?_cons_cons, ← hJ] at h
        rcases ih ch h with h1 | h1
        · left; exact h1
        · right
          simp only [List.getLastD_cons] at h1 ⊢
          exact h1

theorem padset_structure (p0 p1 : Str) (rest : List Str) (done : Str) :
    (padTo3 (p0 :: p1 :: rest)).set 2 done = p0 :: p1 :: done :: rest.tail := by
  cases rest with
  | nil => simp [padTo3]
  | cons r rs => simp [padTo3, List.set]

theorem rowFields_rewrite (done line : Str)
    (hd1 : ¬ ',' ∈ done) (hd2 : ∀ ch, done.getLast? = some ch → isSpaceCh ch = false)
    (hcomma : ',' ∈ pyStrip line) :
    rowFields (rewriteLine done line) = (padTo3 (rowFields line)).set 2 done := by
  have hlen : 2 ≤ (pySplitChar ',' (pyStrip line)).length := pySplitChar_len2 ',' _ hcomma
  obtain ⟨p0, p1, rest, hdecomp⟩ :
      ∃ p0 p1 rest, pySplitChar ',' (pyStrip line) = p0 :: p1 :: rest := by
    cases hc : pySplitChar ',' (pyStrip line) with
    | nil => rw [hc] at hlen; simp at hlen
    | cons q t =>
      cases t with
      | nil => rw [hc] at hlen; simp at hlen
      | cons q1 t1 => exact ⟨q, q1, t1, rfl⟩
  have hrw : rewriteLine done line
      = joinWith ',' (p0 :: p1 :: done :: rest.tail) ++ ['\n'] := by
    unfold rewriteLine
    rw [hdecomp, padset_structure]
  have hfields : rowFields line = p0 :: p1 :: rest := hdecomp
  have hmem : ∀ q ∈ (p0 :: p1 :: done :: rest.tail), ¬ ',' ∈ q := by
    intro q hq
    rcases List.mem_cons.mp hq with h | hq
    · rw [h]; exact pieces_no_sep ',' _ p0 (hdecomp ▸ List.mem_cons_self _ _)
    rcases List.mem_cons.mp hq with h | hq
    · rw [h]
      exact pieces_no_sep ',' _ p1 (hdecomp ▸ List.mem_cons_of_mem _ (List.mem_cons_self _ _))
    rcases List.mem_cons.mp hq with h | hq
    · rw [h]; exact hd1
    · have hq' : q ∈ rest := by
        cases hrt : rest with
        | nil => rw [hrt] at hq; simp at hq
        | cons r t => rw [hrt] at hq; exact List.mem_cons_of_mem _ hq
      exact pieces_no_sep ',' _ q
        (hdecomp ▸ List.mem_cons_of_mem _ (List.mem_cons_of_mem _ hq'))
  have hhead : ∀ ch, (joinWith ',' (p0 :: p1 :: done :: rest.tail)).head? = some ch →
      isSpaceCh ch = false := by
    intro ch hch
    rw [joinWith_head] at hch
    by_cases hp0 : p0 = []
    · rw [if_pos hp0, if_neg (by simp)] at hch
      simp at hch
      rw [← hch]
      decide
    · rw [if_neg hp0] at hch
      have h0 : p0.head? = (pyStrip line).head? :=
        pySplitChar_first_head ',' (pyStrip line) p0 (p1 :: rest) hdecomp hp0
      exact pyStrip_head_not_space line ch (by rw [← h0]; exact hch)
  have hlast : ∀ ch, (joinWith ',' (p0 :: p1 :: done :: rest.tail)).getLast? = some ch →
      isSpaceCh ch = false := by
    intro ch hch
    rcases joinWith_getLast ',' _ ch hch with h1 | h1
    · rw [h1]; decide
    · simp only [List.getLastD_cons] at h1
      cases hrt : rest.tail with
      | nil =>
        rw [hrt] at h1
        simp only [List.getLastD_nil] at h1
        exact hd2 ch h1
      | cons r2 rs2 =>
        rw [hrt] at h1
        obtain ⟨r, hr⟩ : ∃ r, rest = r :: r2 :: rs2 := by
          cases hre : rest with
          | nil => rw [hre] at hrt; simp at hrt
          | cons r t => rw [hre] at hrt; simp at hrt; exact ⟨r, by rw [hrt]⟩
        apply pyStrip_getLast_not_space line ch
        apply pySplitChar_last_getLast ',' (pyStrip line) ch
        rw [hdecomp, hr]
        simp only [List.getLastD_cons] at h1 ⊢
        exact h1
  rw [hrw, hfields, padset_structure]
  unfold rowFields
  rw [pyStrip_append_newline _ hhead hlast,
    split_join_roundtrip ',' _ (by simp) hmem]

/-- C8: rewriting the master status log copies every line that does not begin
with `report_number + ","` to the new file verbatim, and in a matching row
only the third (`Done`) field changes — the columns of the rewritten row are
exactly the padded columns of the old row with index 2 replaced by the done
status (so `Report`, `Path` and all columns beyond the third keep their
values). -/
theorem c8_status_log_frame (report done line : Str)
    (hd1 : ¬ ',' ∈ done) (hd2 : ∀ ch, done.getLast? = some ch → isSpaceCh ch = false) :
    (¬ ((report ++ [',']).isPrefixOf line = true) → lineUpdate report done line = line) ∧
      (((report ++ [',']).isPrefixOf line = true) →
        rowFields (lineUpdate report done line) = (padTo3 (rowFields line)).set 2 done) := by
  constructor
  · intro h
    simp [lineUpdate, h]
  · intro hpre
    have hupdate : lineUpdate report done line = rewriteLine done line := by
      simp [lineUpdate, hpre]
    rw [hupdate]
    have hcomma_line : ',' ∈ line := by
      have hp : (report ++ [',']) <+: line := List.isPrefixOf_iff_prefix.mp hpre
      exact hp.subset (by simp)
    exact rowFields_rewrite done line hd1 hd2 (mem_pyStrip line ',' (by decide) hcomma_line)

theorem c8_status_log_frame_witness :
    (¬ ',' ∈ (['T', 'r', 'u', 'e'] : Str)) ∧
      (∀ ch, (['T', 'r', 'u', 'e'] : Str).getLast? = some ch → isSpaceCh ch = false) ∧
      ((['5'] ++ [',']).isPrefixOf (['5', ',', 'a', ',', 'b', ',', 'c', '\n'] : Str) = true) ∧
      rowFields (lineUpdate ['5'] ['T', 'r', 'u', 'e'] ['5', ',', 'a', ',', 'b', ',', 'c', '\n'])
        = (padTo3 (rowFields ['5', ',', 'a', ',', 'b', ',', 'c', '\n'])).set 2 ['T', 'r', 'u', 'e'] :=
  ⟨by decide, by decide, by decide,
    (c8_status_log_frame ['5'] ['T', 'r', 'u', 'e'] ['5', ',', 'a', ',', 'b', ',', 'c', '\n']
      (by decide) (by intro ch hch; simp at hch; rw [← hch]; decide)).2 (by decide)⟩

theorem pyStrip_of_matching_line (report line : Str) (hrep_ne : report ≠ [])
    (hrep_head : ∀ ch, report.head? = some ch → isSpaceCh ch = false)
    (hpre : (report ++ [',']).isPrefixOf line = true) :
    ∃ u : Str, pyStrip line = report ++ ',' :: u := by
  obtain ⟨rest, hline⟩ := List.isPrefixOf_iff_prefix.mp hpre
  have hline' : line = report ++ ',' :: rest := by rw [← hline]; simp
  subst hline'
  unfold pyStrip
  have hleft : (report ++ ',' :: rest).dropWhile isSpaceCh = report ++ ',' :: rest := by
    apply dropWhile_eq_self_of_head
    intro ch hch
    match report, hrep_ne with
    | r0 :: rtail, _ =>
      simp at hch
      exact hrep_head ch (by rw [← hch]; rfl)
  rw [hleft]
  have hrev : (report ++ ',' :: rest).reverse = rest.reverse ++ ',' :: report.reverse := by
    simp
  rw [hrev, List.dropWhile_append]
  by_cases hcase : (rest.reverse.dropWhile isSpaceCh).isEmpty = true
  · rw [if_pos hcase]
    rw [List.dropWhile_cons, if_neg (by decide)]
    exact ⟨[], by simp⟩
  · rw [if_neg hcase]
    refine ⟨(rest.reverse.dropWhile isSpaceCh).reverse, ?_⟩
    rw [List.reverse_append]
    simp

/-- C4: after exit processing, the matching row of the master status log has
its third (`Done`) column equal to the done status, the done status is
`"True"` exactly when at least one markup node existed in the scene (it does
not depend on whether any individual save succeeded), and the matching row is
the row whose `Report` field equals the report number. -/
theorem c4_done_status (report line : Str) (nodes : List Node)
    (hpre : (report ++ [',']).isPrefixOf line = true) :
    ((rowFields (lineUpdate report (doneStatus nodes) line)).getD 2 [] = doneStatus nodes) ∧
      (doneStatus nodes = ['T', 'r', 'u', 'e'] ↔ nodes ≠ []) ∧
      (report ≠ [] → ¬ ',' ∈ report →
        (∀ ch, report.head? = some ch → isSpaceCh ch = false) →
        (rowFields line).getD 0 [] = report) := by
  have hd1 : ¬ ',' ∈ doneStatus nodes := by
    cases nodes <;> simp [doneStatus]
  have hd2 : ∀ ch, (doneStatus nodes).getLast? = some ch → isSpaceCh ch = false := by
    intro ch hch
    cases nodes with
    | nil => simp [doneStatus] at hch
    | cons nd nds =>
      simp [doneStatus] at hch
      rw [← hch]
      decide
  refine ⟨?_, ?_, ?_⟩
  · have hupdate : lineUpdate report (doneStatus nodes) line
        = rewriteLine (doneStatus nodes) line := by
      simp [lineUpdate, hpre]
    have hcomma_line : ',' ∈ line := by
      have hp : (report ++ [',']) <+: line := List.isPrefixOf_iff_prefix.mp hpre
      exact hp.subset (by simp)
    have hfields := rowFields_rewrite (doneStatus nodes) line hd1 hd2
      (mem_pyStrip line ',' (by decide) hcomma_line)
    rw [hupdate, hfields]
    have hlen : 2 < ((padTo3 (rowFields line)).set 2 (doneStatus nodes)).length := by
      rw [List.length_set]
      unfold padTo3
      rw [List.length_append, List.length_replicate]
      omega
    rw [List.getD_eq_getElem?_getD, List.getElem?_set_self (by rw [List.length_set] at hlen; exact hlen)]
    rfl
  · cases nodes <;> simp [doneStatus]
  · intro hrep_ne hrep_comma hrep_head
    obtain ⟨u, hu⟩ := pyStrip_of_matching_line report line hrep_ne hrep_head hpre
    unfold rowFields
    rw [hu, split_sep_append ',' report u hrep_comma]
    rfl

theorem c4_done_status_witness :
    ((['5'] ++ [',']).isPrefixOf (['5', ',', 'a', '\n'] : Str) = true) ∧
      ((rowFields (lineUpdate ['5'] (doneStatus [⟨['m'], true, []⟩])
          ['5', ',', 'a', '\n'])).getD 2 [] = doneStatus [⟨['m'], true, []⟩] ∧
        (doneStatus [⟨['m'], true, []⟩] = ['T', 'r', 'u', 'e'] ↔
          ([⟨['m'], true, []⟩] : List Node) ≠ []) ∧
        ((['5'] : Str) ≠ [] → ¬ ',' ∈ (['5'] : Str) →
          (∀ ch, (['5'] : Str).head? = some ch → isSpaceCh ch = false) →
          (rowFields ['5', ',', 'a', '\n']).getD 0 [] = ['5'])) :=
  ⟨by decide, c4_done_status ['5'] ['5', ',', 'a', '\n'] [⟨['m'], true, []⟩] (by decide)⟩

/-! ## Association-list lemmas for the markup log -/

theorem logKeys_cons (k : Str) (e : Entry) (m : MarkupLog) :
    logKeys ((k, e) :: m) = k :: logKeys m := rfl

theorem lookupLog_none_iff (k : Str) (m : MarkupLog) :
    lookupLog k m = none ↔ ¬ k ∈ logKeys m := by
  induction m with
  | nil => simp [lookupLog, logKeys]
  | cons p rest ih =>
    obtain ⟨k', e⟩ := p
    by_cases h : k' = k
    · subst h
      simp [lookupLog, logKeys_cons]
    · simp [lookupLog, h, logKeys_cons, ih, Ne.symm h]

theorem lookupLog_append_left (k : Str) (m m' : MarkupLog) (e : Entry)
    (h : lookupLog k m = some e) : lookupLog k (m ++ m') = some e := by
  induction m with
  | nil => simp [lookupLog] at h
  | cons p rest ih =>
    obtain ⟨k', e'⟩ := p
    by_cases hk : k' = k
    · rw [lookupLog, if_pos hk] at h
      rw [List.cons_append, lookupLog, if_pos hk]
      exact h
    · rw [lookupLog, if_neg hk] at h
      rw [List.cons_append, lookupLog, if_neg hk]
      exact ih h

theorem lookupLog_append_right (k : Str) (m m' : MarkupLog)
    (h : lookupLog k m = none) : lookupLog k (m ++ m') = lookupLog k m' := by
  induction m with
  | nil => simp
  | cons p rest ih =>
    obtain ⟨k', e'⟩ := p
    by_cases hk : k' = k
    · rw [lookupLog, if_pos hk] at h
      simp at h
    · rw [lookupLog, if_neg hk] at h
      rw [List.cons_append, lookupLog, if_neg hk]
      exact ih h

theorem lookupLog_map_entry (g : Str → Entry → Entry) (k : Str) (m : MarkupLog) :
    lookupLog k (m.map (fun p => (p.1, g p.1 p.2)))
      = (lookupLog k m).map (fun e => g k e) := by
  induction m with
  | nil => simp [lookupLog]
  | cons p rest ih =>
    obtain ⟨k', e'⟩ := p
    by_cases hk : k' = k
    · subst hk
      simp [lookupLog, ih]
    · simp [lookupLog, hk, ih]

theorem logKeys_map_entry (g : Str → Entry → Entry) (m : MarkupLog) :
    logKeys (m.map (fun p => (p.1, g p.1 p.2))) = logKeys m := by
  simp [logKeys, List.map_map]

/-- Entry transformation of the refresh branch of the save loop. -/
def updEntry (safe c : Str) (k : Str) (e : Entry) : Entry :=
  if k = safe then { e with content := c, deleted_at := [] } else e

/-- Entry transformation of the deletion pass. -/
def delEntry (del : List Str) (now : Str) (k : Str) (e : Entry) : Entry :=
  if k ∈ del ∧ e.deleted_at = [] then { e with deleted_at := now } else e

theorem map_update_form (safe c : Str) (m : MarkupLog) :
    m.map (fun p => if p.1 = safe then (p.1, { p.2 with content := c, deleted_at := [] }) else p)
      = m.map (fun p => (p.1, updEntry safe c p.1 p.2)) := by
  apply List.map_congr_left
  intro p _
  unfold updEntry
  by_cases h : p.1 = safe <;> simp [h]

theorem map_delete_form (del : List Str) (now : Str) (m : MarkupLog) :
    m.map (fun p =>
        if p.1 ∈ del ∧ p.2.deleted_at = [] then (p.1, { p.2 with deleted_at := now }) else p)
      = m.map (fun p => (p.1, delEntry del now p.1 p.2)) := by
  apply List.map_congr_left
  intro p _
  unfold delEntry
  by_cases h : p.1 ∈ del ∧ p.2.deleted_at = [] <;> simp [h]

/-! ## Step lemmas for the save loop -/

/-- The filename the loop assigns to a node in a given state. -/
def safeName (st : ExitState) (nd : Node) : Str :=
  if (encode_filename nd.name ++ jsonSuffix) ∈ logKeys st.log
  then encode_filename nd.name ++ jsonSuffix
  else encode_filename nd.name ++ '_' :: natToDigits (st.maxn + 1).toNat ++ jsonSuffix

theorem processNode_current (now : Str) (st : ExitState) (nd : Node) :
    (processNode now st nd).current = st.current ++ [safeName st nd] := by
  unfold processNode safeName
  by_cases hm : (encode_filename nd.name ++ jsonSuffix) ∈ logKeys st.log <;>
    by_cases hs : nd.saveOk <;>
      simp [hm, hs]

theorem processNode_files_super (now : Str) (st : ExitState) (nd : Node) :
    ∀ f ∈ st.files, f ∈ (processNode now st nd).files := by
  intro f hf
  unfold processNode
  by_cases hm : (encode_filename nd.name ++ jsonSuffix) ∈ logKeys st.log <;>
    by_cases hs : nd.saveOk
  · simp only [hm, if_true, hs, if_true]
    split <;> simp [hf]
  · simp only [hm, if_true, hs, if_false]
    exact hf
  · simp only [hm, if_false, hs, if_true]
    split <;> simp [hf]
  · simp only [hm, if_false, hs, if_false]
    exact hf

theorem processNode_log_cases (now : Str) (st : ExitState) (nd : Node) :
    (processNode now st nd).log = st.log ∨
      (processNode now st nd).log = st.log.map (fun p => (p.1,
        updEntry (safeName st nd) (sanitizeContent nd.content) p.1 p.2)) ∨
      (processNode now st nd).log = st.log ++
        [(safeName st nd, ⟨now, sanitizeContent nd.content, []⟩)] := by
  unfold processNode safeName
  by_cases hm : (encode_filename nd.name ++ jsonSuffix) ∈ logKeys st.log <;>
    by_cases hs : nd.saveOk
  · right; left
    simp only [hm, if_true, hs, if_true, if_pos hm]
    rw [map_update_form]
  · left; simp [hm, hs]
  · by_cases hc : (encode_filename nd.name ++ '_' ::
        natToDigits (st.maxn + 1).toNat ++ jsonSuffix) ∈ logKeys st.log
    · right; left
      simp only [hm, if_false, hs, if_true, hc]
      rw [map_update_form]
    · right; right
      simp only [hm, if_false, hs, if_true, hc]
  · left; simp [hm, hs]

theorem processNode_lookup_untouched (now : Str) (st : ExitState) (nd : Node) (k : Str)
    (hk : k ≠ safeName st nd) :
    lookupLog k (processNode now st nd).log = lookupLog k st.log := by
  rcases processNode_log_cases now st nd with h | h | h <;> rw [h]
  · rw [lookupLog_map_entry]
    unfold updEntry
    cases hl : lookupLog k st.log <;> simp [hk]
  · cases hl : lookupLog k st.log with
    | some e => rw [lookupLog_append_left k _ _ e hl]
    | none =>
      rw [lookupLog_append_right k _ _ hl]
      simp [lookupLog, Ne.symm hk]

theorem processNode_keys_cases (now : Str) (st : ExitState) (nd : Node) :
    logKeys (processNode now st nd).log = logKeys st.log ∨
      logKeys (processNode now st nd).log = logKeys st.log ++ [safeName st nd] := by
  rcases processNode_log_cases now st nd with h | h | h <;> rw [h]
  · left; rfl
  · left; exact logKeys_map_entry _ _
  · right; simp [logKeys]

theorem processNode_created_at (now : Str) (st : ExitState) (nd : Node) (k : Str) (e : Entry)
    (h : lookupLog k st.log = some e) :
    ∃ e', lookupLog k (processNode now st nd).log = some e' ∧
      e'.created_at = e.created_at := by
  rcases processNode_log_cases now st nd with hc | hc | hc <;> rw [hc]
  · exact ⟨e, h, rfl⟩
  · rw [lookupLog_map_entry, h]
    refine ⟨updEntry (safeName st nd) (sanitizeContent nd.content) k e, rfl, ?_⟩
    unfold updEntry
    by_cases hk : k = safeName st nd <;> simp [hk]
  · exact ⟨e, lookupLog_append_left k _ _ e h, rfl⟩

theorem saveLoop_nil (now : Str) (st : ExitState) : saveLoop now [] st = st := rfl

theorem saveLoop_cons (now : Str) (nd : Node) (nds : List Node) (st : ExitState) :
    saveLoop now (nd :: nds) st = saveLoop now nds (processNode now st nd) := rfl

theorem saveLoop_current_super (now : Str) :
    ∀ (nds : List Node) (st : ExitState) (k : Str),
      k ∈ st.current → k ∈ (saveLoop now nds st).current := by
  intro nds
  induction nds with
  | nil => intro st k hk; exact hk
  | cons nd nds ih =>
    intro st k hk
    rw [saveLoop_cons]
    refine ih _ k ?_
    rw [processNode_current]
    exact List.mem_append_left _ hk

theorem saveLoop_files_super (now : Str) :
    ∀ (nds : List Node) (st : ExitState) (f : Str),
      f ∈ st.files → f ∈ (saveLoop now nds st).files := by
  intro nds
  induction nds with
  | nil => intro st f hf; exact hf
  | cons nd nds ih =>
    intro st f hf
    rw [saveLoop_cons]
    exact ih _ f (processNode_files_super now st nd f hf)

theorem saveLoop_lookup_untouched (now : Str) :
    ∀ (nds : List Node) (st : ExitState) (k : Str),
      ¬ k ∈ (saveLoop now nds st).current →
      lookupLog k (saveLoop now nds st).log = lookupLog k st.log := by
  intro nds
  induction nds with
  | nil => intro st k _; rfl
  | cons nd nds ih =>
    intro st k hk
    rw [saveLoop_cons] at hk ⊢
    have hsafe : safeName st nd ∈ (saveLoop now nds (processNode now st nd)).current := by
      apply saveLoop_current_super
      rw [processNode_current]
      exact List.mem_append_right _ (List.mem_cons_self _ _)
    have hne : k ≠ safeName st nd := by
      intro hh; rw [hh] at hk; exact hk hsafe
    rw [ih _ k hk, processNode_lookup_untouched now st nd k hne]

theorem saveLoop_keys_ext (now : Str) :
    ∀ (nds : List Node) (st : ExitState),
      ∃ ext, logKeys (saveLoop now nds st).log = logKeys st.log ++ ext ∧
        ∀ a ∈ ext, a ∈ (saveLoop now nds st).current := by
  intro nds
  induction nds with
  | nil => intro st; exact ⟨[], by rw [saveLoop_nil]; simp, by simp⟩
  | cons nd nds ih =>
    intro st
    rw [saveLoop_cons]
    obtain ⟨ext1, hext1, hmem1⟩ := ih (processNode now st nd)
    rcases processNode_keys_cases now st nd with h | h
    · exact ⟨ext1, by rw [hext1, h], hmem1⟩
    · refine ⟨safeName st nd :: ext1, by rw [hext1, h]; simp, ?_⟩
      intro a ha
      rcases List.mem_cons.mp ha with h1 | h1
      · subst h1
        apply saveLoop_current_super
        rw [processNode_current]
        exact List.mem_append_right _ (List.mem_cons_self _ _)
      · exact hmem1 a h1

theorem saveLoop_created_at (now : Str) :
    ∀ (nds : List Node) (st : ExitState) (k : Str) (e : Entry),
      lookupLog k st.log = some e →
      ∃ e', lookupLog k (saveLoop now nds st).log = some e' ∧
        e'.created_at = e.created_at := by
  intro nds
  induction nds with
  | nil => intro st k e h; exact ⟨e, h, rfl⟩
  | cons nd nds ih =>
    intro st k e h
    rw [saveLoop_cons]
    obtain ⟨e1, he1, hc1⟩ := processNode_created_at now st nd k e h
    obtain ⟨e2, he2, hc2⟩ := ih _ k e1 he1
    exact ⟨e2, he2, by rw [hc2, hc1]⟩

/-! ## The deletion pass -/

theorem processDeletions_log (now : Str) (st : ExitState) (k : Str) :
    lookupLog k (processDeletions now st).log
      = (lookupLog k st.log).map (fun e => delEntry (deletedFiles st) now k e) := by
  have hform : (processDeletions now st).log
      = st.log.map (fun p =>
          if p.1 ∈ deletedFiles st ∧ p.2.deleted_at = [] then
            (p.1, { p.2 with deleted_at := now }) else p) := rfl
  rw [hform, map_delete_form, lookupLog_map_entry]

theorem processDeletions_files (now : Str) (st : ExitState) :
    (processDeletions now st).files
      = st.files.filter (fun f => ¬ f ∈ deletedFiles st) := rfl

theorem processDeletions_current (now : Str) (st : ExitState) :
    (processDeletions now st).current = st.current := rfl

/-- C1: at exit, the set of deleted markups is the set difference between the
filenames in the loaded markup log and the filenames assigned to the markup
nodes in the scene; exactly those entries are treated as deleted — their file
is absent from the source folder afterwards, and their `deleted_at` is set to
the exit timestamp if and only if it was previously empty, while entries
outside the difference keep their log entry and their file. -/
theorem c1_deleted_reconciliation (now : Str) (nodes : List Node) (log0 : MarkupLog)
    (fs0 : List Str) :
    (deletedFiles (saveLoop now nodes (initState log0 fs0))
        = (logKeys log0).filter
            (fun k => ¬ k ∈ (saveLoop now nodes (initState log0 fs0)).current)) ∧
      (∀ k, k ∈ deletedFiles (saveLoop now nodes (initState log0 fs0)) →
        ¬ k ∈ (processDeletions now (saveLoop now nodes (initState log0 fs0))).files ∧
          lookupLog k (processDeletions now (saveLoop now nodes (initState log0 fs0))).log
            = (lookupLog k log0).map
                (fun e =>
                  { e with deleted_at := if e.deleted_at = [] then now else e.deleted_at })) ∧
      (∀ k, ¬ k ∈ deletedFiles (saveLoop now nodes (initState log0 fs0)) →
        lookupLog k (processDeletions now (saveLoop now nodes (initState log0 fs0))).log
            = lookupLog k (saveLoop now nodes (initState log0 fs0)).log ∧
          (k ∈ (saveLoop now nodes (initState log0 fs0)).files →
            k ∈ (processDeletions now (saveLoop now nodes (initState log0 fs0))).files)) := by
  obtain ⟨ext, hkeys, hextmem⟩ := saveLoop_keys_ext now nodes (initState log0 fs0)
  have hinitlog : (initState log0 fs0).log = log0 := rfl
  rw [hinitlog] at hkeys
  refine ⟨?_, ?_, ?_⟩
  · unfold deletedFiles
    rw [hkeys, List.filter_append]
    have hnil : ext.filter
        (fun k => ¬ k ∈ (saveLoop now nodes (initState log0 fs0)).current) = [] := by
      rw [List.filter_eq_nil_iff]
      intro a ha
      simp [hextmem a ha]
    rw [hnil, List.append_nil]
  · intro k hk
    have hk' := List.mem_filter.mp hk
    have hcur : ¬ k ∈ (saveLoop now nodes (initState log0 fs0)).current := by
      simpa using hk'.2
    constructor
    · intro hmem
      rw [processDeletions_files] at hmem
      have := List.mem_filter.mp hmem
      simp at this
      exact this.2 hk
    · rw [processDeletions_log]
      have huntouched := saveLoop_lookup_untouched now nodes (initState log0 fs0) k hcur
      rw [hinitlog] at huntouched
      rw [huntouched]
      cases he : lookupLog k log0 with
      | none => rfl
      | some e =>
        simp only [Option.map_some']
        unfold delEntry
        by_cases hdel : e.deleted_at = []
        · rw [if_pos ⟨hk, hdel⟩, if_pos hdel]
        · rw [if_neg (by rintro ⟨_, hh⟩; exact hdel hh), if_neg hdel]
  · intro k hk
    constructor
    · rw [processDeletions_log]
      cases he : lookupLog k (saveLoop now nodes (initState log0 fs0)).log with
      | none => rfl
      | some e =>
        simp only [Option.map_some']
        unfold delEntry
        rw [if_neg (by rintro ⟨hh, _⟩; exact hk hh)]
    · intro hf
      rw [processDeletions_files]
      rw [List.mem_filter]
      exact ⟨hf, by simpa using hk⟩

theorem c1_deleted_reconciliation_witness :
    ((['o', 'l', 'd'] ++ jsonSuffix)
        ∈ deletedFiles (saveLoop ['t', '2'] []
            (initState [(['o', 'l', 'd'] ++ jsonSuffix, ⟨['t'], ['c'], []⟩)]
              [['o', 'l', 'd'] ++ jsonSuffix]))) ∧
      (¬ (['o', 'l', 'd'] ++ jsonSuffix)
          ∈ (processDeletions ['t', '2'] (saveLoop ['t', '2'] []
              (initState [(['o', 'l', 'd'] ++ jsonSuffix, ⟨['t'], ['c'], []⟩)]
                [['o', 'l', 'd'] ++ jsonSuffix]))).files ∧
        lookupLog (['o', 'l', 'd'] ++ jsonSuffix)
            (processDeletions ['t', '2'] (saveLoop ['t', '2'] []
              (initState [(['o', 'l', 'd'] ++ jsonSuffix, ⟨['t'], ['c'], []⟩)]
                [['o', 'l', 'd'] ++ jsonSuffix]))).log
          = (lookupLog (['o', 'l', 'd'] ++ jsonSuffix)
                [(['o', 'l', 'd'] ++ jsonSuffix, ⟨['t'], ['c'], []⟩)]).map
              (fun e =>
                { e with deleted_at := if e.deleted_at = [] then ['t', '2'] else e.deleted_at })) :=
  ⟨by decide,
    (c1_deleted_reconciliation ['t', '2'] []
        [(['o', 'l', 'd'] ++ jsonSuffix, ⟨['t'], ['c'], []⟩)]
        [['o', 'l', 'd'] ++ jsonSuffix]).2.1
      (['o', 'l', 'd'] ++ jsonSuffix) (by decide)⟩

/-- C10: the `created_at` field of every entry already present in the loaded
markup log is unchanged by the whole exit reconciliation. -/
theorem c10_created_at_preserved (now : Str) (nodes : List Node) (log0 : MarkupLog)
    (fs0 : List Str) (k : Str) (e : Entry) (h : lookupLog k log0 = some e) :
    ∃ e', lookupLog k (runExit now nodes log0 fs0).log = some e' ∧
      e'.created_at = e.created_at := by
  have hinit : lookupLog k (initState log0 fs0).log = some e := h
  obtain ⟨e1, he1, hc1⟩ := saveLoop_created_at now nodes (initState log0 fs0) k e hinit
  unfold runExit
  rw [processDeletions_log, he1]
  refine ⟨delEntry (deletedFiles (saveLoop now nodes (initState log0 fs0))) now k e1, rfl, ?_⟩
  unfold delEntry
  by_cases hd : k ∈ deletedFiles (saveLoop now nodes (initState log0 fs0)) ∧
      e1.deleted_at = [] <;> simp [hd, hc1]

theorem c10_created_at_preserved_witness :
    (lookupLog ['a'] [(['a'], ⟨['t', '0'], ['c'], []⟩)] = some ⟨['t', '0'], ['c'], []⟩) ∧
      ∃ e', lookupLog ['a'] (runExit ['t', '1'] [] [(['a'], ⟨['t', '0'], ['c'], []⟩)] []).log
          = some e' ∧ e'.created_at = (⟨['t', '0'], ['c'], []⟩ : Entry).created_at :=
  ⟨by decide,
    c10_created_at_preserved ['t', '1'] [] [(['a'], ⟨['t', '0'], ['c'], []⟩)] [] ['a']
      ⟨['t', '0'], ['c'], []⟩ (by decide)⟩

/-! ## Matching of nodes against log entries (claim C2) -/

theorem freshName_not_mem (st : ExitState) (nd : Node) (h0 : 0 ≤ st.maxn)
    (hb : ∀ k ∈ logKeys st.log, ∀ v : Int, parseTrailing k = some v → v ≤ st.maxn) :
    ¬ (encode_filename nd.name ++ '_' :: natToDigits (st.maxn + 1).toNat ++ jsonSuffix)
        ∈ logKeys st.log := by
  intro hmem
  have hp := parseTrailing_constructed (encode_filename nd.name) (st.maxn + 1).toNat
  have hle := hb _ hmem _ hp
  have htoNat : (((st.maxn + 1).toNat : Nat) : Int) = st.maxn + 1 :=
    Int.toNat_of_nonneg (by omega)
  rw [htoNat] at hle
  omega

/-- C2 counterexample: when saving a node fails, no log entry is created for
it — with a single unmatched node whose save fails, the markup log stays
empty after exit. -/
theorem c2_counterexample :
    (runExit ['t'] [⟨['a'], false, []⟩] [] []).log = [] := by decide

/-- C2 (amended): for a node processed during exit whose save succeeds: if
its encoded name followed by `.json` matches no filename in the current log,
a new entry is appended under the freshly generated filename with
`created_at` the exit timestamp and empty `deleted_at`; if it matches, that
entry is reused — its content refreshed and its `deleted_at` cleared — and no
new entry is created. -/
theorem c2_node_matching (now : Str) (st : ExitState) (nd : Node)
    (h0 : 0 ≤ st.maxn)
    (hb : ∀ k ∈ logKeys st.log, ∀ v : Int, parseTrailing k = some v → v ≤ st.maxn)
    (hsave : nd.saveOk = true) :
    (¬ (encode_filename nd.name ++ jsonSuffix) ∈ logKeys st.log →
      (processNode now st nd).log
          = st.log ++
            [(encode_filename nd.name ++ '_' :: natToDigits (st.maxn + 1).toNat ++ jsonSuffix,
              ⟨now, sanitizeContent nd.content, []⟩)] ∧
        (processNode now st nd).assigned
          = st.assigned ++
            [encode_filename nd.name ++ '_' :: natToDigits (st.maxn + 1).toNat ++ jsonSuffix]) ∧
      ((encode_filename nd.name ++ jsonSuffix) ∈ logKeys st.log →
        logKeys (processNode now st nd).log = logKeys st.log ∧
          lookupLog (encode_filename nd.name ++ jsonSuffix) (processNode now st nd).log
            = (lookupLog (encode_filename nd.name ++ jsonSuffix) st.log).map
                (fun e => { e with content := sanitizeContent nd.content, deleted_at := [] }) ∧
          (processNode now st nd).assigned = st.assigned) := by
  constructor
  · intro hm
    have hfresh := freshName_not_mem st nd h0 hb
    constructor
    · unfold processNode
      simp only [hm, if_false, hsave, if_true, hfresh]
    · unfold processNode
      simp [hm, hsave]
  · intro hm
    refine ⟨?_, ?_, ?_⟩
    · have hlog : (processNode now st nd).log
          = st.log.map (fun p =>
              (p.1, updEntry (encode_filename nd.name ++ jsonSuffix)
                (sanitizeContent nd.content) p.1 p.2)) := by
        unfold processNode
        simp only [hm, if_true, hsave, if_pos hm]
        rw [map_update_form]
      rw [hlog, logKeys_map_entry]
    · have hlog : (processNode now st nd).log
          = st.log.map (fun p =>
              (p.1, updEntry (encode_filename nd.name ++ jsonSuffix)
                (sanitizeContent nd.content) p.1 p.2)) := by
        unfold processNode
        simp only [hm, if_true, hsave, if_pos hm]
        rw [map_update_form]
      rw [hlog, lookupLog_map_entry]
      cases he : lookupLog (encode_filename nd.name ++ jsonSuffix) st.log with
      | none => rfl
      | some e =>
        simp only [Option.map_some']
        unfold updEntry
        rw [if_pos rfl]
    · unfold processNode
      simp [hm, hsave]

theorem c2_node_matching_witness :
    (0 ≤ (initState [] []).maxn) ∧
      (∀ k ∈ logKeys (initState [] []).log, ∀ v : Int,
        parseTrailing k = some v → v ≤ (initState [] []).maxn) ∧
      ((⟨['a'], true, ['x']⟩ : Node).saveOk = true) ∧
      (¬ (encode_filename ['a'] ++ jsonSuffix) ∈ logKeys (initState [] []).log →
        (processNode ['t'] (initState [] []) ⟨['a'], true, ['x']⟩).log
            = (initState [] []).log ++
              [(encode_filename ['a'] ++ '_' ::
                  natToDigits ((initState [] []).maxn + 1).toNat ++ jsonSuffix,
                ⟨['t'], sanitizeContent ['x'], []⟩)] ∧
          (processNode ['t'] (initState [] []) ⟨['a'], true, ['x']⟩).assigned
            = (initState [] []).assigned ++
              [encode_filename ['a'] ++ '_' ::
                natToDigits ((initState [] []).maxn + 1).toNat ++ jsonSuffix]) :=
  ⟨by decide, by decide, by decide,
    (c2_node_matching ['t'] (initState [] []) ⟨['a'], true, ['x']⟩ (by decide)
      (by decide) (by decide)).1⟩

/-! ## Freshness of generated filenames (claim C6) -/

/-- One step of the `max_number` scan. -/
def maxStep (mx : Int) (k : Str) : Int :=
  match parseTrailing k with
  | some v => if v > mx then v else mx
  | none => mx

theorem initMax_eq (keys : List Str) : initMax keys = keys.foldl maxStep 0 := rfl

theorem maxStep_ge (mx : Int) (k : Str) : mx ≤ maxStep mx k := by
  unfold maxStep
  cases parseTrailing k with
  | none => exact le_refl _
  | some v =>
    dsimp only
    split <;> omega

theorem foldlMax_ge (keys : List Str) : ∀ acc : Int, acc ≤ keys.foldl maxStep acc := by
  induction keys with
  | nil => intro acc; exact le_refl _
  | cons k rest ih =>
    intro acc
    exact le_trans (maxStep_ge acc k) (ih (maxStep acc k))

theorem foldlMax_bound (keys : List Str) :
    ∀ (acc : Int) (k : Str), k ∈ keys → ∀ v : Int, parseTrailing k = some v →
      v ≤ keys.foldl maxStep acc := by
  induction keys with
  | nil => intro acc k hk; simp at hk
  | cons k' rest ih =>
    intro acc k hk v hv
    rcases List.mem_cons.mp hk with h | h
    · have hstep : v ≤ maxStep acc k' := by
        unfold maxStep
        rw [← h, hv]
        dsimp only
        split <;> omega
      exact le_trans hstep (foldlMax_ge rest (maxStep acc k'))
    · exact ih (maxStep acc k') k h v hv

theorem initMax_nonneg (keys : List Str) : 0 ≤ initMax keys := by
  rw [initMax_eq]; exact foldlMax_ge keys 0

theorem initMax_bound (keys : List Str) (k : Str) (hk : k ∈ keys) (v : Int)
    (hv : parseTrailing k = some v) : v ≤ initMax keys := by
  rw [initMax_eq]; exact foldlMax_bound keys 0 k hk v hv

/-- The trailing-number value of a filename, defaulting to 0. -/
def parseValD (a : Str) : Int := (parseTrailing a).getD 0

/-- Invariant of the save loop that guarantees freshness of generated names. -/
structure SaveInv (log0 : MarkupLog) (st : ExitState) : Prop where
  nonneg : 0 ≤ st.maxn
  start_le : initMax (logKeys log0) ≤ st.maxn
  keyBound : ∀ k ∈ logKeys st.log, ∀ v : Int, parseTrailing k = some v → v ≤ st.maxn
  assignedForm : ∀ a ∈ st.assigned, ∃ (e : Str) (n : Nat),
    a = e ++ '_' :: natToDigits n ++ jsonSuffix ∧ parseTrailing a = some (n : Int) ∧
      1 ≤ n ∧ (n : Int) ≤ st.maxn ∧ initMax (logKeys log0) < (n : Int)
  sorted : st.assigned.Pairwise (fun a b => parseValD a < parseValD b)

theorem processNode_keys_matched (now : Str) (st : ExitState) (nd : Node)
    (hm : (encode_filename nd.name ++ jsonSuffix) ∈ logKeys st.log) :
    logKeys (processNode now st nd).log = logKeys st.log := by
  by_cases hs : nd.saveOk
  · have hlog : (processNode now st nd).log
        = st.log.map (fun p =>
            (p.1, updEntry (encode_filename nd.name ++ jsonSuffix)
              (sanitizeContent nd.content) p.1 p.2)) := by
      unfold processNode
      simp only [hm, if_true, hs, if_pos hm]
      rw [map_update_form]
    rw [hlog, logKeys_map_entry]
  · unfold processNode
    simp [hm, hs]

theorem processNode_maxn_matched (now : Str) (st : ExitState) (nd : Node)
    (hm : (encode_filename nd.name ++ jsonSuffix) ∈ logKeys st.log) :
    (processNode now st nd).maxn = st.maxn := by
  unfold processNode
  by_cases hs : nd.saveOk <;> simp [hm, hs]

theorem processNode_maxn_new (now : Str) (st : ExitState) (nd : Node)
    (hm : ¬ (encode_filename nd.name ++ jsonSuffix) ∈ logKeys st.log) :
    (processNode now st nd).maxn = st.maxn + 1 := by
  unfold processNode
  by_cases hs : nd.saveOk <;> by_cases hc : (encode_filename nd.name ++ '_' ::
      natToDigits (st.maxn + 1).toNat ++ jsonSuffix) ∈ logKeys st.log <;>
    simp [hm, hs, hc]

theorem processNode_assigned_matched (now : Str) (st : ExitState) (nd : Node)
    (hm : (encode_filename nd.name ++ jsonSuffix) ∈ logKeys st.log) :
    (processNode now st nd).assigned = st.assigned := by
  unfold processNode
  by_cases hs : nd.saveOk <;> simp [hm, hs]

theorem processNode_assigned_new (now : Str) (st : ExitState) (nd : Node)
    (hm : ¬ (encode_filename nd.name ++ jsonSuffix) ∈ logKeys st.log) :
    (processNode now st nd).assigned
      = st.assigned ++
        [encode_filename nd.name ++ '_' :: natToDigits (st.maxn + 1).toNat ++ jsonSuffix] := by
  unfold processNode
  by_cases hs : nd.saveOk <;> by_cases hc : (encode_filename nd.name ++ '_' ::
      natToDigits (st.maxn + 1).toNat ++ jsonSuffix) ∈ logKeys st.log <;>
    simp [hm, hs, hc]

theorem saveInv_init (log0 : MarkupLog) (fs0 : List Str) :
    SaveInv log0 (initState log0 fs0) := by
  refine ⟨initMax_nonneg _, le_refl _, ?_, ?_, ?_⟩
  · intro k hk v hv
    exact initMax_bound (logKeys log0) k hk v hv
  · intro a ha
    simp [initState] at ha
  · simp [initState]

theorem saveInv_step (log0 : MarkupLog) (now : Str) (st : ExitState) (nd : Node)
    (h : SaveInv log0 st) : SaveInv log0 (processNode now st nd) := by
  by_cases hm : (encode_filename nd.name ++ jsonSuffix) ∈ logKeys st.log
  · refine ⟨?_, ?_, ?_, ?_, ?_⟩
    · rw [processNode_maxn_matched now st nd hm]; exact h.nonneg
    · rw [processNode_maxn_matched now st nd hm]; exact h.start_le
    · rw [processNode_maxn_matched now st nd hm, processNode_keys_matched now st nd hm]
      exact h.keyBound
    · rw [processNode_maxn_matched now st nd hm, processNode_assigned_matched now st nd hm]
      exact h.assignedForm
    · rw [processNode_assigned_matched now st nd hm]
      exact h.sorted
  · have htoNat : (((st.maxn + 1).toNat : Nat) : Int) = st.maxn + 1 :=
      Int.toNat_of_nonneg (by have := h.nonneg; omega)
    have hparse := parseTrailing_constructed (encode_filename nd.name) (st.maxn + 1).toNat
    have hsafe : safeName st nd
        = encode_filename nd.name ++ '_' :: natToDigits (st.maxn + 1).toNat ++ jsonSuffix := by
      unfold safeName; rw [if_neg hm]
    refine ⟨?_, ?_, ?_, ?_, ?_⟩
    · rw [processNode_maxn_new now st nd hm]; have := h.nonneg; omega
    · rw [processNode_maxn_new now st nd hm]; have := h.start_le; omega
    · rw [processNode_maxn_new now st nd hm]
      intro k hk v hv
      rcases processNode_keys_cases now st nd with hc | hc <;> rw [hc] at hk
      · have := h.keyBound k hk v hv; omega
      · rcases List.mem_append.mp hk with h1 | h1
        · have := h.keyBound k h1 v hv; omega
        · have h1' := List.mem_singleton.mp h1
          subst h1'
          rw [hsafe, hparse] at hv
          have hv' := Option.some.inj hv
          have := h.nonneg
          omega
    · rw [processNode_maxn_new now st nd hm, processNode_assigned_new now st nd hm]
      intro a ha
      rcases List.mem_append.mp ha with h1 | h1
      · obtain ⟨e, n, hform, hpa, hn1, hnle, hngt⟩ := h.assignedForm a h1
        exact ⟨e, n, hform, hpa, hn1, by omega, hngt⟩
      · have h1' := List.mem_singleton.mp h1
        subst h1'
        refine ⟨encode_filename nd.name, (st.maxn + 1).toNat, rfl, hparse, ?_, ?_, ?_⟩
        · have := h.nonneg; omega
        · omega
        · have := h.start_le; omega
    · rw [processNode_assigned_new now st nd hm]
      rw [List.pairwise_append]
      refine ⟨h.sorted, by simp, ?_⟩
      intro a ha b hb
      have hb' := List.mem_singleton.mp hb
      subst hb'
      obtain ⟨e, n, hform, hpa, hn1, hnle, hngt⟩ := h.assignedForm a ha
      unfold parseValD
      rw [hpa, hparse]
      simp
      omega

theorem saveInv_loop (log0 : MarkupLog) (now : Str) :
    ∀ (nds : List Node) (st : ExitState), SaveInv log0 st →
      SaveInv log0 (saveLoop now nds st) := by
  intro nds
  induction nds with
  | nil => intro st h; exact h
  | cons nd nds ih =>
    intro st h
    rw [saveLoop_cons]
    exact ih _ (saveInv_step log0 now st nd h)

/-- C6: every filename freshly assigned during one exit has the form
`<base>_<n>.json` where `n` parses back from the name and is strictly greater
than every trailing number among the filenames of the loaded markup log;
successive assignments use strictly increasing `n`; consequently no newly
assigned filename equals an already-logged filename or another newly assigned
one. -/
theorem c6_fresh_filenames (now : Str) (nodes : List Node) (log0 : MarkupLog)
    (fs0 : List Str) :
    (∀ a ∈ (saveLoop now nodes (initState log0 fs0)).assigned,
        ∃ (e : Str) (n : Nat), a = e ++ '_' :: natToDigits n ++ jsonSuffix ∧
          parseTrailing a = some (n : Int) ∧ 1 ≤ n ∧
          (∀ k ∈ logKeys log0, ∀ v : Int, parseTrailing k = some v → v < (n : Int)) ∧
          ¬ a ∈ logKeys log0) ∧
      (saveLoop now nodes (initState log0 fs0)).assigned.Pairwise
        (fun a b => parseValD a < parseValD b) ∧
      (saveLoop now nodes (initState log0 fs0)).assigned.Nodup := by
  have hinv := saveInv_loop log0 now nodes (initState log0 fs0) (saveInv_init log0 fs0)
  refine ⟨?_, hinv.sorted, ?_⟩
  · intro a ha
    obtain ⟨e, n, hform, hpa, hn1, hnle, hngt⟩ := hinv.assignedForm a ha
    refine ⟨e, n, hform, hpa, hn1, ?_, ?_⟩
    · intro k hk v hv
      have := initMax_bound (logKeys log0) k hk v hv
      omega
    · intro hmem
      have := initMax_bound (logKeys log0) a hmem ((n : Nat) : Int) hpa
      omega
  · exact List.Pairwise.imp
      (fun {a b} (hab : parseValD a < parseValD b) (heq : a = b) => by
        rw [heq] at hab; exact lt_irrefl _ hab)
      hinv.sorted

theorem c6_fresh_filenames_witness :
    ((['a', '_', '8'] ++ jsonSuffix)
        ∈ (saveLoop ['t'] [⟨['a'], true, ['x']⟩]
            (initState [(['o', 'l', 'd', '_', '7'] ++ jsonSuffix, ⟨[], [], []⟩)] [])).assigned) ∧
      (∃ (e : Str) (n : Nat),
        ['a', '_', '8'] ++ jsonSuffix = e ++ '_' :: natToDigits n ++ jsonSuffix ∧
          parseTrailing (['a', '_', '8'] ++ jsonSuffix) = some (n : Int) ∧ 1 ≤ n ∧
          (∀ k ∈ logKeys [(['o', 'l', 'd', '_', '7'] ++ jsonSuffix, (⟨[], [], []⟩ : Entry))],
            ∀ v : Int, parseTrailing k = some v → v < (n : Int)) ∧
          ¬ (['a', '_', '8'] ++ jsonSuffix)
              ∈ logKeys [(['o', 'l', 'd', '_', '7'] ++ jsonSuffix, (⟨[], [], []⟩ : Entry))]) :=
  ⟨by decide,
    (c6_fresh_filenames ['t'] [⟨['a'], true, ['x']⟩]
        [(['o', 'l', 'd', '_', '7'] ++ jsonSuffix, ⟨[], [], []⟩)] []).1
      (['a', '_', '8'] ++ jsonSuffix) (by decide)⟩

/-! ## Round trip of the markup-log writer and loader (claim C3) -/

/-- The line the writer emits for one entry (without the trailing newline). -/
def entryLine (p : Str × Entry) : Str :=
  p.1 ++ ',' :: p.2.created_at ++ ',' :: '"' :: p.2.content ++ '"' :: ',' :: p.2.deleted_at

theorem writeLog_eq (m : MarkupLog) : writeLog m = headerLine :: m.map entryLine := rfl

/-- One step of the loader's fold. -/
def loadStep (m : MarkupLog) (line : Str) : MarkupLog :=
  let parts := splitN ',' 3 (pyStrip line)
  if parts.length ≥ 4 then
    upsertLog (parts.getD 0 []) ⟨parts.getD 1 [], parts.getD 2 [], parts.getD 3 []⟩ m
  else m

theorem loadLog_eq (lines : List Str) : loadLog lines = (lines.drop 1).foldl loadStep [] := rfl

/-- What loading gives back: the content field re-wrapped in double quotes. -/
def quoteContent (e : Entry) : Entry :=
  ⟨e.created_at, '"' :: e.content ++ ['"'], e.deleted_at⟩

/-- Fields that survive the exit-time CSV round trip. -/
def fieldOk (s : Str) : Prop := ¬ ',' ∈ s ∧ ¬ '\n' ∈ s

/-- A well-formed log entry for the round trip: comma- and newline-free
fields, no leading whitespace on the filename and no trailing whitespace on
`deleted_at` (Python strips the whole line). -/
def EntryWf (p : Str × Entry) : Prop :=
  fieldOk p.1 ∧ fieldOk p.2.created_at ∧ fieldOk p.2.content ∧ fieldOk p.2.deleted_at ∧
    (∀ ch, p.1.head? = some ch → isSpaceCh ch = false) ∧
    (∀ ch, p.2.deleted_at.getLast? = some ch → isSpaceCh ch = false)

theorem splitFirst_sep (c : Char) :
    ∀ (a r : Str), ¬ c ∈ a → splitFirst c (a ++ c :: r) = some (a, r) := by
  intro a
  induction a with
  | nil => intro r _; simp [splitFirst]
  | cons x a' ih =>
    intro r ha
    have hx : x ≠ c := fun hh => ha (hh ▸ List.mem_cons_self x a')
    have ha' : ¬ c ∈ a' := fun hh => ha (List.mem_cons_of_mem _ hh)
    rw [List.cons_append]
    simp only [splitFirst, if_neg hx, ih r ha']
    rfl

theorem entryLine_strip (p : Str × Entry) (hwf : EntryWf p) :
    pyStrip (entryLine p) = entryLine p := by
  obtain ⟨⟨hf1, _⟩, _, _, ⟨hd1, _⟩, hfh, hdl⟩ := hwf
  apply pyStrip_eq_self
  · intro ch hch
    unfold entryLine at hch
    cases hf : p.1 with
    | nil => rw [hf] at hch; simp at hch; rw [← hch]; decide
    | cons c0 f' =>
      rw [hf] at hch
      simp at hch
      exact hfh ch (by rw [hf]; simpa using hch)
  · intro ch hch
    have hassoc : entryLine p
        = (p.1 ++ ',' :: p.2.created_at ++ ',' :: '"' :: p.2.content ++ ['"'])
            ++ ',' :: p.2.deleted_at := by
      unfold entryLine
      simp
    rw [hassoc, List.getLast?_append_of_ne_nil _ (by simp)] at hch
    cases hd : p.2.deleted_at with
    | nil => rw [hd] at hch; simp at hch; rw [← hch]; decide
    | cons d0 d' =>
      rw [hd, List.getLast?_cons_cons] at hch
      exact hdl ch (by rw [hd]; exact hch)

theorem splitN_succ_sep (c : Char) (n : Nat) (a r : Str) (ha : ¬ c ∈ a) :
    splitN c (n + 1) (a ++ c :: r) = a :: splitN c n r := by
  conv_lhs => unfold splitN
  rw [splitFirst_sep c a r ha]

instance : DecidablePred fieldOk := fun s => by
  unfold fieldOk; infer_instance

instance : DecidablePred EntryWf := fun p => by
  unfold EntryWf fieldOk; infer_instance

theorem entryLine_splitN (p : Str × Entry) (hwf : EntryWf p) :
    splitN ',' 3 (entryLine p)
      = [p.1, p.2.created_at, '"' :: p.2.content ++ ['"'], p.2.deleted_at] := by
  obtain ⟨⟨hf1, _⟩, ⟨hc1, _⟩, ⟨hk1, _⟩, _, _, _⟩ := hwf
  have hC : ¬ ',' ∈ ('"' :: p.2.content ++ ['"'] : Str) := by
    intro hmem
    rcases List.mem_cons.mp hmem with h | h
    · exact absurd h (by decide)
    · rcases List.mem_append.mp h with h | h
      · exact hk1 h
      · simp at h
  have hline : entryLine p
      = p.1 ++ ',' :: (p.2.created_at
          ++ ',' :: (('"' :: p.2.content ++ ['"']) ++ ',' :: p.2.deleted_at)) := by
    unfold entryLine
    simp
  rw [hline, show (3 : Nat) = 2 + 1 from rfl, splitN_succ_sep ',' 2 p.1 _ hf1,
    show (2 : Nat) = 1 + 1 from rfl, splitN_succ_sep ',' 1 p.2.created_at _ hc1,
    show (1 : Nat) = 0 + 1 from rfl,
    splitN_succ_sep ',' 0 ('"' :: p.2.content ++ ['"']) _ hC]
  rfl

theorem loadStep_append (acc : MarkupLog) (p : Str × Entry) (hwf : EntryWf p)
    (hnew : ¬ p.1 ∈ logKeys acc) :
    loadStep acc (entryLine p) = acc ++ [(p.1, quoteContent p.2)] := by
  unfold loadStep
  rw [entryLine_strip p hwf, entryLine_splitN p hwf]
  rw [if_pos (by simp)]
  have hgetd0 : ([p.1, p.2.created_at, '"' :: p.2.content ++ ['"'], p.2.deleted_at].getD 0 [])
      = p.1 := rfl
  have hgetd1 : ([p.1, p.2.created_at, '"' :: p.2.content ++ ['"'], p.2.deleted_at].getD 1 [])
      = p.2.created_at := rfl
  have hgetd2 : ([p.1, p.2.created_at, '"' :: p.2.content ++ ['"'], p.2.deleted_at].getD 2 [])
      = '"' :: p.2.content ++ ['"'] := rfl
  have hgetd3 : ([p.1, p.2.created_at, '"' :: p.2.content ++ ['"'], p.2.deleted_at].getD 3 [])
      = p.2.deleted_at := rfl
  rw [hgetd0, hgetd1, hgetd2, hgetd3]
  unfold upsertLog
  rw [if_neg hnew]
  rfl

theorem logKeys_append (m m' : MarkupLog) :
    logKeys (m ++ m') = logKeys m ++ logKeys m' := by
  simp [logKeys]

theorem loadLog_writeLog_aux :
    ∀ (m : MarkupLog) (acc : MarkupLog),
      (∀ p ∈ m, EntryWf p) → (logKeys acc ++ logKeys m).Nodup →
      (m.map entryLine).foldl loadStep acc
        = acc ++ m.map (fun p => (p.1, quoteContent p.2)) := by
  intro m
  induction m with
  | nil => intro acc _ _; simp
  | cons p rest ih =>
    intro acc hwf hnd
    have hpwf : EntryWf p := hwf p (List.mem_cons_self p rest)
    have hkeys_cons : logKeys (p :: rest) = p.1 :: logKeys rest := rfl
    have hnew : ¬ p.1 ∈ logKeys acc := by
      have hdis := List.disjoint_of_nodup_append hnd
      intro hmem
      refine hdis hmem ?_
      rw [hkeys_cons]
      exact List.mem_cons_self _ _
    rw [List.map_cons, List.foldl_cons, loadStep_append acc p hpwf hnew]
    have hnd' : (logKeys (acc ++ [(p.1, quoteContent p.2)]) ++ logKeys rest).Nodup := by
      rw [logKeys_append]
      have heq : (logKeys acc ++ logKeys [(p.1, quoteContent p.2)]) ++ logKeys rest
          = logKeys acc ++ logKeys (p :: rest) := by
        rw [hkeys_cons]
        simp [logKeys]
      rw [heq]
      exact hnd
    rw [ih (acc ++ [(p.1, quoteContent p.2)])
      (fun q hq => hwf q (List.mem_cons_of_mem _ hq)) hnd']
    simp

/-- C3 counterexample: the CSV writer wraps `content` in double quotes, and
the loader does not strip them, so writing and re-loading is not the
identity even on comma- and newline-free entries. -/
theorem c3_counterexample :
    loadLog (writeLog [(['a'], ⟨['t'], ['X'], []⟩)]) ≠ [(['a'], ⟨['t'], ['X'], []⟩)] := by
  decide

/-- C3 (amended): for a markup-log mapping with distinct filenames whose
fields contain no commas and no newlines, no leading whitespace on the
filename and no trailing whitespace on `deleted_at`, writing the log and
re-parsing it yields the same mapping except that each `content` field comes
back wrapped in one extra pair of double quotes. -/
theorem c3_load_write_quoted (m : MarkupLog)
    (hwf : ∀ p ∈ m, EntryWf p) (hnd : (logKeys m).Nodup) :
    loadLog (writeLog m) = m.map (fun p => (p.1, quoteContent p.2)) := by
  rw [writeLog_eq, loadLog_eq]
  have hdrop : ((headerLine :: m.map entryLine).drop 1) = m.map entryLine := rfl
  rw [hdrop, loadLog_writeLog_aux m [] hwf (by simpa [logKeys] using hnd)]
  simp

theorem c3_load_write_quoted_witness :
    (∀ p ∈ [((['a'], ⟨['t'], ['X'], []⟩) : Str × Entry)], EntryWf p) ∧
      (logKeys [((['a'], ⟨['t'], ['X'], []⟩) : Str × Entry)]).Nodup ∧
      loadLog (writeLog [(['a'], ⟨['t'], ['X'], []⟩)])
        = [(['a'], ⟨['t'], ['X'], []⟩)].map (fun p => (p.1, quoteContent p.2)) :=
  ⟨by decide, by decide,
    c3_load_write_quoted [(['a'], ⟨['t'], ['X'], []⟩)] (by decide) (by decide)⟩
